import Mathlib

/-!
Verification of the columnar arena library (`src/lib.rs`).

The development shallowly embeds the library:

* `MemRegion` models `memory::Region<T>` (the `Nil`/`Heap`/`MMap` enum);
  the `Heap` and `MMap` variants behave identically at the level of the
  vector they hold, so both are modelled by the `buf` constructor holding
  the vector's contents and its capacity.
* `StableRegion` models `StableRegion<T>` with its `local` buffer, its
  `stash` of retired buffers, and its `limit`.  The Rust-side layout
  quantity `size_of::<T>()` is carried as the field `sz`, and the
  capacity of the `stash` vector is carried as `stashCap` so that
  `heap_size` can be modelled faithfully.
* `Ty`/`Val`/`Rep`/`RegState` model the type-driven `Region` hierarchy:
  a `Ty` names one of the supported `Columnation` types (primitives via
  `CopyRegion`, `Option`, `Result`, `Vec`, `String`, and tuples — tuple
  arities are generated mechanically from the binary case, modelled by
  `pair`).  A `Val` is an owned record, a `Rep` is the surface replica
  returned by `Region::copy` (vector- and string-shaped replicas hold a
  pointer into the arena, modelled as buffer index/offset plus the
  falsified length and capacity fields), and a `RegState` is the state
  of the region hierarchy for a `Ty`.
* `ColumnStack` models `ColumnStack<T>`: the surface buffer `loc`
  (named `local` in the source; `local` is reserved in Lean), its
  capacity, and the inner region state.

Panics are modelled by `Option`/`none` (the relevant panic is
`memory::Region::as_mut` on the `Nil` variant).  Reading a replica back
through the arena — which is what Rust's `PartialEq` on the replica
does — is modelled by `resolve`.
-/

namespace Columnation

/-- Doubles `acc` until it reaches `n`; the fuel argument only bounds
the number of doubling steps. -/
def pow2Ge (n : ℕ) : ℕ → ℕ → ℕ
  | 0, acc => acc
  | fuel + 1, acc => if n ≤ acc then acc else pow2Ge n fuel (2 * acc)

/-- Models `usize::next_power_of_two`: the least power of two that is
greater than or equal to the argument (`1` for `0`); `n` doubling steps
always suffice since `2 ^ n ≥ n`. -/
def nextPow2 (n : ℕ) : ℕ := pow2Ge n n 1

/-- Models `memory::Region::MMAP_SIZE = 2 << 20` (2 MiB). -/
def MMAP_SIZE : ℕ := 2097152

/-- Models `size_of::<Vec<T>>()` on a 64-bit target (pointer, capacity
and length words), used by `StableRegion::heap_size` for the `stash`
vector's own allocation. -/
def sizeOfVecT : ℕ := 24

/-- Models the capacity growth of a `Vec` whose buffer must hold
`needed` elements: `RawVec` grows amortized, to at least the maximum of
twice the current capacity and the needed length. -/
def vecGrow (cap needed : ℕ) : ℕ := max (2 * cap) needed

/-- Models the capacity of a `Vec` of length `len` and capacity `cap`
after one `push`: unchanged if there is room, otherwise grown. -/
def vecPushCap (len cap : ℕ) : ℕ :=
  if len < cap then cap else vecGrow cap (len + 1)

/-- Models `memory::Region<T>`.  `Heap(Vec<T>)` and `MMap(Vec<T>, _)`
expose exactly the same vector behaviour (they differ only in where the
backing storage came from and how it is returned on drop), so both are
modelled by `buf`, holding the vector's contents and capacity. -/
inductive MemRegion (α : Type) where
  | nil
  | buf (data : List α) (cap : ℕ)
deriving DecidableEq

namespace MemRegion

/-- Models `memory::Region::len`. -/
def len : MemRegion α → ℕ
  | .nil => 0
  | .buf d _ => d.length

/-- Models `memory::Region::capacity`. -/
def capacity : MemRegion α → ℕ
  | .nil => 0
  | .buf _ c => c

/-- Models `memory::Region::is_empty`. -/
def isEmpty (r : MemRegion α) : Bool := r.len == 0

/-- Models `memory::Region::clear` (`vec.set_len(0)`, keeping the
allocation; no element destructor runs). -/
def clearLen : MemRegion α → MemRegion α
  | .nil => .nil
  | .buf _ c => .buf [] c

/-- The elements currently stored (the vector's contents). -/
def dataOf : MemRegion α → List α
  | .nil => []
  | .buf d _ => d

/-- Models `impl Extend for memory::Region` (and `extend_from_slice`,
which has the same effect): `as_mut` panics on `Nil` (modelled by
`none`); on a buffer, std's extend reserves the exact input length up
front (the inputs are slices or exact-size iterators) and then appends.
The returned flag records whether a reallocation moved contents that
had already been written (`true` exactly when the buffer grew while
non-empty). -/
def extend : MemRegion α → List α → Option (MemRegion α × Bool)
  | .nil, _ => none
  | .buf d c, xs =>
    if d.length + xs.length ≤ c then some (.buf (d ++ xs) c, false)
    else some (.buf (d ++ xs) (vecGrow c (d.length + xs.length)), !d.isEmpty)

/-- Capacity is an upper bound on the length (a `Vec` invariant). -/
def wfB : MemRegion α → Bool
  | .nil => true
  | .buf d c => d.length ≤ c

end MemRegion

/-- Models `memory::Region::new_heap` (`Vec::with_capacity`). -/
def newHeap (cap : ℕ) : MemRegion α := .buf [] cap

/-- Models `memory::Region::new_mmap`, with `sz` standing for
`size_of::<T>()`, assuming the page pool can supply a chunk (on demand
`try_refill` maps a fresh file, so the pool does not run dry):
`byte_len = min(0x1000, sz * capacity).next_power_of_two()` and the
returned vector has capacity `byte_len / sz`. -/
def newMmap (sz cap : ℕ) : MemRegion α :=
  .buf [] (nextPow2 (min 4096 (sz * cap)) / sz)

/-- Models `memory::Region::new_auto`, with `sz` standing for
`size_of::<T>()`: heap for zero-sized types, `Nil` for zero bytes,
the mmap pool for exactly `MMAP_SIZE` bytes, heap otherwise. -/
def newAuto (sz cap : ℕ) : MemRegion α :=
  if sz = 0 then newHeap cap
  else if sz * cap = 0 then .nil
  else if sz * cap = MMAP_SIZE then newMmap sz cap
  else newHeap cap

/-- Models `StableRegion<T>`.  `loc` is the `local` field of the source
(`local` is reserved in Lean).  `sz` carries `size_of::<T>()` and
`stashCap` the capacity of the `stash` vector, both needed only by
`heap_size`. -/
structure StableRegion (α : Type) where
  sz : ℕ
  loc : MemRegion α
  stash : List (MemRegion α)
  stashCap : ℕ
  limit : ℕ
deriving DecidableEq

/-- Reference to a slice returned by `copy_iter`/`copy_slice`: the
buffer it lives in (as an index into `stash ++ [local]`), the offset of
its first element, and its length. -/
structure SliceRef where
  buf : ℕ
  off : ℕ
  len : ℕ
deriving DecidableEq

namespace StableRegion

/-- Models `impl Default for StableRegion` (`local: Nil`, empty stash,
`limit: 2 << 20`). -/
def mkDefault (sz : ℕ) : StableRegion α :=
  ⟨sz, .nil, [], 0, 2097152⟩

/-- Models `StableRegion::with_limit`. -/
def withLimit (sz limit : ℕ) : StableRegion α :=
  ⟨sz, .nil, [], 0, limit⟩

/-- Models `StableRegion::clear`: length-reset `local`, release the
stashed buffers (`Vec::clear` keeps the stash vector's own capacity). -/
def clear (s : StableRegion α) : StableRegion α :=
  { s with loc := s.loc.clearLen, stash := [] }

/-- Models `StableRegion::reserve`. -/
def reserve (s : StableRegion α) (count : ℕ) : StableRegion α :=
  if count > s.loc.capacity - s.loc.len then
    let next0 := nextPow2 (s.loc.capacity + 1)
    let next1 := min next0 s.limit
    let next2 := max count next1
    let newLocal : MemRegion α := newAuto s.sz next2
    if s.loc.isEmpty then { s with loc := newLocal }
    else { s with loc := newLocal,
                  stash := s.stash ++ [s.loc],
                  stashCap := vecPushCap s.stash.length s.stashCap }
  else s

/-- Models `StableRegion::copy_iter`: reserve for the exact length,
record the write offset, extend `local`, and return the reference to
the newly written suffix.  `none` models the `as_mut` panic; the flag
is the reallocation-while-nonempty flag of `MemRegion.extend`. -/
def copyIter (s : StableRegion α) (items : List α) :
    Option (StableRegion α × SliceRef × Bool) :=
  let s1 := s.reserve items.length
  let initialLen := s1.loc.len
  match s1.loc.extend items with
  | none => none
  | some (l2, moved) =>
    some ({ s1 with loc := l2 }, ⟨s1.stash.length, initialLen, items.length⟩, moved)

/-- Models `StableRegion::copy_slice`, which differs from `copy_iter`
only in using `extend_from_slice` (same effect on the buffer). -/
def copySlice (s : StableRegion α) (items : List α) :
    Option (StableRegion α × SliceRef × Bool) :=
  let s1 := s.reserve items.length
  let initialLen := s1.loc.len
  match s1.loc.extend items with
  | none => none
  | some (l2, moved) =>
    some ({ s1 with loc := l2 }, ⟨s1.stash.length, initialLen, items.length⟩, moved)

/-- Models `StableRegion::len`: elements in `local` plus all stashed
buffers. -/
def length (s : StableRegion α) : ℕ :=
  s.loc.len + (s.stash.map MemRegion.len).sum

/-- Models `StableRegion::heap_size`: the list of `(used, capacity)`
byte pairs passed to the callback, in call order — `local`, then the
stash vector itself, then each stashed buffer. -/
def heapSize (s : StableRegion α) : List (ℕ × ℕ) :=
  (s.loc.len * s.sz, s.loc.capacity * s.sz) ::
  (s.stash.length * sizeOfVecT, s.stashCap * sizeOfVecT) ::
  s.stash.map (fun r => (r.len * s.sz, r.capacity * s.sz))

/-- All buffers of the region, stashed ones first, `local` last.  A
buffer's index in this list never changes while it holds data: `stash`
only grows at the tail, and `local` sits at index `stash.length`, which
is exactly where `reserve` pushes it when it is retired. -/
def buffers (s : StableRegion α) : List (MemRegion α) :=
  s.stash ++ [s.loc]

/-- The element at buffer `b`, offset `j` (the model of a stable
address). -/
def lookupAt (s : StableRegion α) (b j : ℕ) : Option α :=
  (s.buffers[b]?).bind fun r => r.dataOf[j]?

/-- Read back the slice a `SliceRef` points at. -/
def readSlice (s : StableRegion α) (ref : SliceRef) : Option (List α) :=
  (s.buffers[ref.buf]?).bind fun r =>
    if ref.off + ref.len ≤ r.dataOf.length
    then some ((r.dataOf.drop ref.off).take ref.len)
    else none

/-- Well-formedness: every buffer respects its capacity and the stash
vector respects its own capacity. -/
def wfB (s : StableRegion α) : Bool :=
  s.loc.wfB && s.stash.all MemRegion.wfB && decide (s.stash.length ≤ s.stashCap)

/-- One region state extends another when every buffer position still
holds at least the data it held before (new data may only be appended
at the end of a buffer, and new buffers may appear). -/
def Ext (s s' : StableRegion α) : Prop :=
  ∀ (b : ℕ) (r : MemRegion α), s.buffers[b]? = some r →
    ∃ (r' : MemRegion α) (rest : List α),
      s'.buffers[b]? = some r' ∧ r'.dataOf = r.dataOf ++ rest

end StableRegion

/-- The supported `Columnation` types: primitives bound to `CopyRegion`
(integers, booleans, char, floats, unit, wrapping integers, durations —
all bit-copied, so modelled by one constructor), `Option`, `Result`,
`Vec`, `String`, and tuples.  Tuple arities 1–32 are mechanical
instantiations of one schema; the binary case `pair` models it. -/
inductive Ty where
  | prim
  | opt (t : Ty)
  | res (a b : Ty)
  | vec (t : Ty)
  | str
  | pair (a b : Ty)
deriving DecidableEq

/-- An owned record of a supported type.  Primitive payloads are
modelled by a natural number standing for the bit pattern; string
payloads by their byte list. -/
inductive Val where
  | prim (n : ℕ)
  | noneV
  | someV (v : Val)
  | okV (v : Val)
  | errV (v : Val)
  | vecV (l : List Val)
  | strV (s : List ℕ)
  | pairV (a b : Val)

/-- A surface replica as returned by `Region::copy`: identical in shape
to the record, except that `Vec`- and `String`-shaped components hold a
pointer into an arena (`buf`, `off`) together with their falsified
length and capacity fields (`Vec::from_raw_parts(ptr, len, cap)` /
`String::from_raw_parts`). -/
inductive Rep where
  | prim (n : ℕ)
  | noneR
  | someR (r : Rep)
  | okR (r : Rep)
  | errR (r : Rep)
  | vecPtr (buf off len cap : ℕ)
  | strPtr (buf off len cap : ℕ)
  | pairR (a b : Rep)
deriving DecidableEq

/-- The state of the `Region` hierarchy for one element type:
`CopyRegion` is stateless, `OptionRegion` holds its inner region,
`ResultRegion` holds two, `VecRegion<T>` holds a `StableRegion<T>` of
replicas plus `T`'s inner region, `StringStack` holds a
`StableRegion<u8>`, and the tuple region holds one region per
component. -/
inductive RegState where
  | primSt
  | optSt (r : RegState)
  | resSt (r1 r2 : RegState)
  | vecSt (sr : StableRegion Rep) (inner : RegState)
  | strSt (sr : StableRegion ℕ)
  | pairSt (r1 r2 : RegState)
deriving DecidableEq

/-- Typing of owned records. -/
def hasTy : Ty → Val → Bool
  | .prim => fun v =>
    match v with
    | .prim _ => true
    | _ => false
  | .opt t => fun v =>
    match v with
    | .noneV => true
    | .someV x => hasTy t x
    | _ => false
  | .res a b => fun v =>
    match v with
    | .okV x => hasTy a x
    | .errV x => hasTy b x
    | _ => false
  | .vec t => fun v =>
    match v with
    | .vecV l => l.all (fun x => hasTy t x)
    | _ => false
  | .str => fun v =>
    match v with
    | .strV _ => true
    | _ => false
  | .pair a b => fun v =>
    match v with
    | .pairV x y => hasTy a x && hasTy b y
    | _ => false

/-- A region state has the shape the type prescribes. -/
def shapeB : Ty → RegState → Bool
  | .prim => fun rs =>
    match rs with
    | .primSt => true
    | _ => false
  | .opt t => fun rs =>
    match rs with
    | .optSt r => shapeB t r
    | _ => false
  | .res a b => fun rs =>
    match rs with
    | .resSt r1 r2 => shapeB a r1 && shapeB b r2
    | _ => false
  | .vec t => fun rs =>
    match rs with
    | .vecSt _ inner => shapeB t inner
    | _ => false
  | .str => fun rs =>
    match rs with
    | .strSt _ => true
    | _ => false
  | .pair a b => fun rs =>
    match rs with
    | .pairSt r1 r2 => shapeB a r1 && shapeB b r2
    | _ => false

/-- Models `T::InnerRegion::default()`: the region hierarchy in its
initial state.  `szOf t` stands for `size_of::<T>()` of the surface
type of `t` (an uninterpreted layout parameter); string data is bytes,
so its `StableRegion<u8>` has element size 1. -/
def freshRegState (szOf : Ty → ℕ) : Ty → RegState
  | .prim => .primSt
  | .opt t => .optSt (freshRegState szOf t)
  | .res a b => .resSt (freshRegState szOf a) (freshRegState szOf b)
  | .vec t => .vecSt (.mkDefault (szOf t)) (freshRegState szOf t)
  | .str => .strSt (.mkDefault 1)
  | .pair a b => .pairSt (freshRegState szOf a) (freshRegState szOf b)

/-- Folds `inner.copy` over the elements of a vector, threading the
inner region state and collecting the replicas in order — the effect of
the `item.iter().map(|element| inner.copy(element))` iterator that
`VecRegion::copy` feeds to `copy_iter`. -/
def rcopyL (f : RegState → Val → Option (Rep × RegState)) :
    RegState → List Val → Option (List Rep × RegState)
  | rs, [] => some ([], rs)
  | rs, v :: vs =>
    match f rs v with
    | none => none
    | some (r, rs1) =>
      match rcopyL f rs1 vs with
      | none => none
      | some (more, rs2) => some (r :: more, rs2)

/-- Models `Region::copy` for each implementation, type-directed:
`CopyRegion` bit-copies, `OptionRegion`/`ResultRegion`/the tuple region
dispatch and recurse, `VecRegion` copies the elements through the inner
region and the resulting replicas into its `StableRegion` via
`copy_iter`, then falsifies a vector `Vec::from_raw_parts(ptr,
item.len(), item.len())`, and `StringStack` copies the bytes via
`copy_slice`, then falsifies a string with `len == cap == item.len()`.
`none` models a panic (reachable through `copy_iter`/`copy_slice` on a
`Nil` local buffer); a shape mismatch between state and value cannot
occur for well-typed input. -/
def rcopy : Ty → RegState → Val → Option (Rep × RegState)
  | .prim => fun rs v =>
    match rs, v with
    | .primSt, .prim n => some (.prim n, .primSt)
    | _, _ => none
  | .opt t => fun rs v =>
    match rs, v with
    | .optSt r, .noneV => some (.noneR, .optSt r)
    | .optSt r, .someV x =>
      match rcopy t r x with
      | none => none
      | some (rep, r2) => some (.someR rep, .optSt r2)
    | _, _ => none
  | .res a b => fun rs v =>
    match rs, v with
    | .resSt r1 r2, .okV x =>
      match rcopy a r1 x with
      | none => none
      | some (rep, r1') => some (.okR rep, .resSt r1' r2)
    | .resSt r1 r2, .errV x =>
      match rcopy b r2 x with
      | none => none
      | some (rep, r2') => some (.errR rep, .resSt r1 r2')
    | _, _ => none
  | .vec t => fun rs v =>
    match rs, v with
    | .vecSt sr inner, .vecV l =>
      match rcopyL (fun st e => rcopy t st e) inner l with
      | none => none
      | some (reps, inner2) =>
        match sr.copyIter reps with
        | none => none
        | some (sr2, ref, _) =>
          some (.vecPtr ref.buf ref.off l.length l.length, .vecSt sr2 inner2)
    | _, _ => none
  | .str => fun rs v =>
    match rs, v with
    | .strSt sr, .strV bytes =>
      match sr.copySlice bytes with
      | none => none
      | some (sr2, ref, _) =>
        some (.strPtr ref.buf ref.off bytes.length bytes.length, .strSt sr2)
    | _, _ => none
  | .pair a b => fun rs v =>
    match rs, v with
    | .pairSt r1 r2, .pairV x y =>
      match rcopy a r1 x with
      | none => none
      | some (ra, r1') =>
        match rcopy b r2 y with
        | none => none
        | some (rb, r2') => some (.pairR ra rb, .pairSt r1' r2')
    | _, _ => none

/-- Maps a partial function over a list, failing if any element fails. -/
def mapOpt (f : α → Option β) : List α → Option (List β)
  | [] => some []
  | x :: xs => (f x).bind fun y => (mapOpt f xs).bind fun ys => some (y :: ys)

/-- Reads a replica back through the arena — the observation a consumer
makes through `&T` (`PartialEq`, `Debug`, iteration all read the
pointed-to arena contents).  Vector replicas resolve their slice in the
`StableRegion` and then resolve each stored element replica through the
inner region; string replicas resolve their byte slice. -/
def resolve : RegState → Rep → Option Val
  | .primSt => fun rep =>
    match rep with
    | .prim n => some (.prim n)
    | _ => none
  | .optSt r => fun rep =>
    match rep with
    | .noneR => some .noneV
    | .someR x =>
      match resolve r x with
      | none => none
      | some v => some (.someV v)
    | _ => none
  | .resSt r1 r2 => fun rep =>
    match rep with
    | .okR x =>
      match resolve r1 x with
      | none => none
      | some v => some (.okV v)
    | .errR x =>
      match resolve r2 x with
      | none => none
      | some v => some (.errV v)
    | _ => none
  | .vecSt sr inner => fun rep =>
    match rep with
    | .vecPtr b o l _ =>
      match sr.readSlice ⟨b, o, l⟩ with
      | none => none
      | some reps =>
        match mapOpt (fun r => resolve inner r) reps with
        | none => none
        | some vals => some (.vecV vals)
    | _ => none
  | .strSt sr => fun rep =>
    match rep with
    | .strPtr b o l _ =>
      match sr.readSlice ⟨b, o, l⟩ with
      | none => none
      | some bytes => some (.strV bytes)
    | _ => none
  | .pairSt r1 r2 => fun rep =>
    match rep with
    | .pairR x y =>
      match resolve r1 x with
      | none => none
      | some a =>
        match resolve r2 y with
        | none => none
        | some b => some (.pairV a b)
    | _ => none

namespace RegState

/-- Models `Region::clear` for each implementation: `CopyRegion` does
nothing, the structural regions forward to their children, `VecRegion`
and `StringStack` clear their `StableRegion` (and, for `VecRegion`, the
inner region). -/
def clear : RegState → RegState
  | .primSt => .primSt
  | .optSt r => .optSt r.clear
  | .resSt r1 r2 => .resSt r1.clear r2.clear
  | .vecSt sr inner => .vecSt sr.clear inner.clear
  | .strSt sr => .strSt sr.clear
  | .pairSt r1 r2 => .pairSt r1.clear r2.clear

/-- Models `Region::heap_size` for each implementation: the list of
`(used, capacity)` byte pairs passed to the callback, in call order
(`CopyRegion` reports nothing; `VecRegion` reports `inner` first, then
its `StableRegion`, as in the source). -/
def heapSize : RegState → List (ℕ × ℕ)
  | .primSt => []
  | .optSt r => r.heapSize
  | .resSt r1 r2 => r1.heapSize ++ r2.heapSize
  | .vecSt sr inner => inner.heapSize ++ sr.heapSize
  | .strSt sr => sr.heapSize
  | .pairSt r1 r2 => r1.heapSize ++ r2.heapSize

/-- Well-formedness of all `StableRegion`s in the hierarchy. -/
def wfB : RegState → Bool
  | .primSt => true
  | .optSt r => r.wfB
  | .resSt r1 r2 => r1.wfB && r2.wfB
  | .vecSt sr inner => sr.wfB && inner.wfB
  | .strSt sr => sr.wfB
  | .pairSt r1 r2 => r1.wfB && r2.wfB

/-- Structural extension of region hierarchies: the shapes agree and
every `StableRegion` only grows (in the sense of
`StableRegion.Ext`). -/
def ext : RegState → RegState → Prop
  | .primSt, .primSt => True
  | .optSt r, .optSt r' => ext r r'
  | .resSt r1 r2, .resSt r1' r2' => ext r1 r1' ∧ ext r2 r2'
  | .vecSt sr inner, .vecSt sr' inner' => sr.Ext sr' ∧ ext inner inner'
  | .strSt sr, .strSt sr' => sr.Ext sr'
  | .pairSt r1 r2, .pairSt r1' r2' => ext r1 r1' ∧ ext r2 r2'
  | _, _ => False

end RegState

/-- Models `ColumnStack<T>`: the surface vector `local` (its contents
`loc` and its capacity `cap`; `szT` stands for `size_of::<T>()`, used
by `heap_size`) together with the inner region. -/
structure ColumnStack where
  loc : List Rep
  cap : ℕ
  szT : ℕ
  inner : RegState
deriving DecidableEq

namespace ColumnStack

/-- Models `ColumnStack::default()` at element type `t`. -/
def fresh (szOf : Ty → ℕ) (szT : ℕ) (t : Ty) : ColumnStack :=
  ⟨[], 0, szT, freshRegState szOf t⟩

/-- Models `ColumnStack::copy`: push the replica returned by
`inner.copy(item)` onto `local` (`none` when the inner copy panics, in
which case nothing is pushed). -/
def copy (t : Ty) (s : ColumnStack) (item : Val) : Option ColumnStack :=
  match rcopy t s.inner item with
  | none => none
  | some (rep, inner') =>
    some { loc := s.loc ++ [rep],
           cap := vecPushCap s.loc.length s.cap,
           szT := s.szT,
           inner := inner' }

/-- Models `ColumnStack::clear`: length-reset `local` (keeping its
allocation, running no destructor) and clear the inner region. -/
def clear (s : ColumnStack) : ColumnStack :=
  { s with loc := [], inner := s.inner.clear }

/-- Models `ColumnStack::heap_size`: first `local`, then the inner
region's report. -/
def heapSize (s : ColumnStack) : List (ℕ × ℕ) :=
  (s.loc.length * s.szT, s.cap * s.szT) :: s.inner.heapSize

/-- Sum of the capacity components a `heap_size` report mentions. -/
def capTotal (s : ColumnStack) : ℕ :=
  (s.heapSize.map Prod.snd).sum

/-- Well-formedness: the surface vector respects its capacity and the
inner region is well-formed. -/
def wfB (s : ColumnStack) : Bool :=
  decide (s.loc.length ≤ s.cap) && s.inner.wfB

/-- The read-only view `&stack[..]`, with each element read back
through the arena. -/
def view (s : ColumnStack) : List (Option Val) :=
  s.loc.map (resolve s.inner)

end ColumnStack

/-- Runs `stack.copy(&r)` for each record in order. -/
def runCopies (t : Ty) : ColumnStack → List Val → Option ColumnStack
  | s, [] => some s
  | s, v :: vs =>
    match s.copy t v with
    | none => none
    | some s' => runCopies t s' vs

end Columnation

namespace Columnation

namespace MemRegion

theorem wfB_buf {d : List α} {c : ℕ} : (MemRegion.buf d c).wfB = true ↔ d.length ≤ c := by
  simp [wfB]

theorem dataOf_eq_nil_of_isEmpty {r : MemRegion α} (h : r.isEmpty = true) : r.dataOf = [] := by
  cases r with
  | nil => rfl
  | buf d c =>
    simp [isEmpty, len] at h
    simp [dataOf, h]

theorem len_eq_dataOf_length (r : MemRegion α) : r.len = r.dataOf.length := by
  cases r <;> rfl

end MemRegion

theorem newAuto_dataOf (sz cap : ℕ) : (newAuto sz cap : MemRegion α).dataOf = [] := by
  unfold newAuto newHeap newMmap
  split <;> [rfl; split <;> [rfl; (split <;> rfl)]]

theorem newAuto_wf (sz cap : ℕ) : (newAuto sz cap : MemRegion α).wfB = true := by
  unfold newAuto newHeap newMmap
  split_ifs <;> simp [MemRegion.wfB]

theorem vecPushCap_lt (len cap : ℕ) : len < vecPushCap len cap := by
  unfold vecPushCap vecGrow
  split <;> omega

theorem vecPushCap_le (len cap : ℕ) : cap ≤ vecPushCap len cap := by
  unfold vecPushCap vecGrow
  split <;> omega

namespace StableRegion

theorem Ext.refl (s : StableRegion α) : s.Ext s := by
  intro b r hb
  exact ⟨r, [], hb, by simp⟩

theorem Ext.trans {s t u : StableRegion α} (h1 : s.Ext t) (h2 : t.Ext u) : s.Ext u := by
  intro b r hb
  obtain ⟨r', rest, hb', hd'⟩ := h1 b r hb
  obtain ⟨r'', rest', hb'', hd''⟩ := h2 b r' hb'
  exact ⟨r'', rest ++ rest', hb'', by rw [hd'', hd']; simp⟩

theorem lookupAt_mono {s s' : StableRegion α} (h : s.Ext s') {b j : ℕ} {v : α}
    (hl : s.lookupAt b j = some v) : s'.lookupAt b j = some v := by
  unfold lookupAt at hl ⊢
  cases hb : s.buffers[b]? with
  | none => rw [hb] at hl; exact absurd hl (by simp)
  | some r =>
    rw [hb] at hl
    simp only [Option.some_bind] at hl
    obtain ⟨r', rest, hb', hd'⟩ := h b r hb
    rw [hb']
    simp only [Option.some_bind]
    rw [hd']
    have hj : j < r.dataOf.length := (List.getElem?_eq_some.mp hl).1
    rw [List.getElem?_append_left hj]
    exact hl

theorem readSlice_mono {s s' : StableRegion α} (h : s.Ext s') {ref : SliceRef} {xs : List α}
    (hl : s.readSlice ref = some xs) : s'.readSlice ref = some xs := by
  unfold readSlice at hl ⊢
  cases hb : s.buffers[ref.buf]? with
  | none => rw [hb] at hl; exact absurd hl (by simp)
  | some r =>
    rw [hb] at hl
    simp only [Option.some_bind] at hl
    obtain ⟨r', rest, hb', hd'⟩ := h ref.buf r hb
    rw [hb']
    simp only [Option.some_bind]
    rw [hd']
    by_cases hle : ref.off + ref.len ≤ r.dataOf.length
    · rw [if_pos hle] at hl
      have hle' : ref.off + ref.len ≤ (r.dataOf ++ rest).length := by
        simp only [List.length_append]; omega
      rw [if_pos hle']
      rw [List.drop_append_of_le_length (by omega),
        List.take_append_of_le_length (by simp; omega)]
      exact hl
    · rw [if_neg hle] at hl
      exact absurd hl (by simp)

end StableRegion

end Columnation

namespace Columnation

theorem MemRegion.wf_len_le_cap {r : MemRegion α} (h : r.wfB = true) : r.len ≤ r.capacity := by
  cases r with
  | nil => exact Nat.le_refl 0
  | buf d c => simpa [MemRegion.wfB, MemRegion.len, MemRegion.capacity] using h

namespace StableRegion

theorem wfB_iff {s : StableRegion α} :
    s.wfB = true ↔
      s.loc.wfB = true ∧ (∀ r ∈ s.stash, r.wfB = true) ∧ s.stash.length ≤ s.stashCap := by
  unfold wfB
  simp [List.all_eq_true, and_assoc]

theorem ext_of_prefix {s s' : StableRegion α} (h : ∃ tail, s'.buffers = s.buffers ++ tail) :
    s.Ext s' := by
  intro b r hb
  obtain ⟨tail, ht⟩ := h
  refine ⟨r, [], ?_, by simp⟩
  rw [ht, List.getElem?_append_left (List.getElem?_eq_some.mp hb).1]
  exact hb

theorem ext_of_loc {s s' : StableRegion α} (hst : s'.stash = s.stash)
    (hd : ∃ rest, s'.loc.dataOf = s.loc.dataOf ++ rest) : s.Ext s' := by
  intro b r hb
  unfold buffers at hb ⊢
  rw [hst]
  by_cases hlt : b < s.stash.length
  · rw [List.getElem?_append_left hlt] at hb ⊢
    exact ⟨r, [], hb, by simp⟩
  · have hge : s.stash.length ≤ b := Nat.le_of_not_lt hlt
    rw [List.getElem?_append_right hge] at hb ⊢
    obtain ⟨rest, hrest⟩ := hd
    cases hsub : b - s.stash.length with
    | zero =>
      rw [hsub] at hb
      simp only [List.getElem?_cons_zero, Option.some.injEq] at hb
      exact ⟨s'.loc, rest, by simp, by rw [hrest, hb]⟩
    | succ m =>
      rw [hsub] at hb
      simp at hb

theorem ext_of_push {s s' : StableRegion α} (hst : s'.stash = s.stash ++ [s.loc]) :
    s.Ext s' := by
  apply ext_of_prefix
  refine ⟨[s'.loc], ?_⟩
  unfold buffers
  rw [hst]

theorem reserve_stash_eq_or (s : StableRegion α) (k : ℕ) :
    (s.reserve k).stash = s.stash ∨ (s.reserve k).stash = s.stash ++ [s.loc] := by
  unfold reserve
  split
  · split
    · exact Or.inl rfl
    · exact Or.inr rfl
  · exact Or.inl rfl

theorem reserve_sz (s : StableRegion α) (k : ℕ) : (s.reserve k).sz = s.sz := by
  unfold reserve
  split
  · split <;> rfl
  · rfl

theorem reserve_limit (s : StableRegion α) (k : ℕ) : (s.reserve k).limit = s.limit := by
  unfold reserve
  split
  · split <;> rfl
  · rfl

theorem reserve_ext (s : StableRegion α) (k : ℕ) : s.Ext (s.reserve k) := by
  unfold reserve
  split
  · split
    · rename_i hcond hempty
      refine ext_of_loc rfl ⟨[], ?_⟩
      simp only [newAuto_dataOf, MemRegion.dataOf_eq_nil_of_isEmpty hempty, List.append_nil]
    · exact ext_of_push rfl
  · exact Ext.refl s

theorem reserve_wf {s : StableRegion α} (h : s.wfB = true) (k : ℕ) :
    (s.reserve k).wfB = true := by
  rw [wfB_iff] at h ⊢
  obtain ⟨hloc, hstash, hcap⟩ := h
  unfold reserve
  split
  · split
    · exact ⟨newAuto_wf _ _, hstash, hcap⟩
    · refine ⟨newAuto_wf _ _, ?_, ?_⟩
      · intro r hr
        simp only [List.mem_append, List.mem_singleton] at hr
        rcases hr with hr | hr
        · exact hstash r hr
        · rw [hr]; exact hloc
      · simp only [List.length_append, List.length_singleton]
        have := vecPushCap_lt s.stash.length s.stashCap
        omega
  · exact ⟨hloc, hstash, hcap⟩

theorem reserve_post {s : StableRegion α} (h : s.wfB = true) (k : ℕ) :
    (s.reserve k).loc.len + k ≤ (s.reserve k).loc.capacity ∨
      ((s.reserve k).loc.dataOf = [] ∧ (s.reserve k).loc.len = 0) := by
  have hloc : s.loc.len ≤ s.loc.capacity :=
    MemRegion.wf_len_le_cap (wfB_iff.mp h).1
  unfold reserve
  split
  · have hdata : ∀ sz c,
        (newAuto sz c : MemRegion α).dataOf = [] ∧ (newAuto sz c : MemRegion α).len = 0 := by
      intro sz c
      refine ⟨newAuto_dataOf sz c, ?_⟩
      rw [MemRegion.len_eq_dataOf_length, newAuto_dataOf]
      rfl
    split
    · exact Or.inr (hdata _ _)
    · exact Or.inr (hdata _ _)
  · rename_i hcond
    left
    omega

end StableRegion

end Columnation

namespace Columnation

theorem MemRegion.extend_buf_spec (d : List α) (c : ℕ) (xs : List α) :
    ∃ c' mv, (MemRegion.buf d c).extend xs = some (.buf (d ++ xs) c', mv) ∧
      d.length + xs.length ≤ c' ∧ c ≤ c' ∧
      (d = [] → mv = false) ∧ (d.length + xs.length ≤ c → mv = false) := by
  by_cases h : d.length + xs.length ≤ c
  · refine ⟨c, false, ?_, h, Nat.le_refl c, fun _ => rfl, fun _ => rfl⟩
    simp [extend, h]
  · refine ⟨vecGrow c (d.length + xs.length), !d.isEmpty, ?_, ?_, ?_, ?_, ?_⟩
    · simp [extend, h]
    · unfold vecGrow; omega
    · unfold vecGrow; omega
    · intro hd; rw [hd]; rfl
    · intro hc; omega

namespace StableRegion

theorem copySlice_eq_copyIter (s : StableRegion α) (xs : List α) :
    s.copySlice xs = s.copyIter xs := rfl

theorem copyIter_spec {s : StableRegion α} (h : s.wfB = true) {xs : List α}
    {s' : StableRegion α} {ref : SliceRef} {mv : Bool}
    (hc : s.copyIter xs = some (s', ref, mv)) :
    s.Ext s' ∧ s'.wfB = true ∧ mv = false ∧ s'.readSlice ref = some xs ∧
      s'.sz = s.sz ∧ s'.limit = s.limit ∧ s'.stash = (s.reserve xs.length).stash := by
  simp only [copyIter] at hc
  have hwf1 : (s.reserve xs.length).wfB = true := reserve_wf h xs.length
  have hpost := reserve_post h xs.length
  have hext1 : s.Ext (s.reserve xs.length) := reserve_ext s xs.length
  cases hloc : (s.reserve xs.length).loc with
  | nil =>
    rw [hloc] at hc
    simp [MemRegion.extend] at hc
  | buf d c =>
    obtain ⟨c', mv', hex, hlen, hcle, hmv1, hmv2⟩ := MemRegion.extend_buf_spec d c xs
    rw [hloc, hex] at hc
    simp only [MemRegion.len, Option.some.injEq, Prod.mk.injEq] at hc
    obtain ⟨hs', href, hmv⟩ := hc
    have hmvfalse : mv' = false := by
      rw [hloc] at hpost
      simp only [MemRegion.len, MemRegion.capacity, MemRegion.dataOf] at hpost
      rcases hpost with hp | ⟨hp, _⟩
      · exact hmv2 hp
      · exact hmv1 hp
    have hext2 : (s.reserve xs.length).Ext s' := by
      apply ext_of_loc
      · rw [← hs']
      · refine ⟨xs, ?_⟩
        rw [← hs', hloc]
        simp [MemRegion.dataOf]
    refine ⟨Ext.trans hext1 hext2, ?_, ?_, ?_, ?_, ?_, ?_⟩
    · rw [wfB_iff] at hwf1 ⊢
      obtain ⟨hl1, hst1, hc1⟩ := hwf1
      rw [← hs']
      refine ⟨?_, hst1, hc1⟩
      simp only [MemRegion.wfB_buf, List.length_append]
      exact hlen
    · rw [← hmv]; exact hmvfalse
    · rw [← hs', ← href]
      unfold readSlice buffers
      simp only [List.getElem?_concat_length, Option.some_bind]
      rw [if_pos (by simp [MemRegion.dataOf])]
      simp only [MemRegion.dataOf, Option.some.injEq]
      rw [List.drop_left' rfl]
      exact List.take_of_length_le (Nat.le_refl xs.length)
    · rw [← hs']; exact reserve_sz s xs.length
    · rw [← hs']; exact reserve_limit s xs.length
    · rw [← hs']

end StableRegion

end Columnation

namespace Columnation

theorem MemRegion.capacity_buf (d : List α) (c : ℕ) : (MemRegion.buf d c).capacity = c := rfl

theorem newAuto_cases (sz c : ℕ) :
    (newAuto sz c : MemRegion α) = .nil ∨
      ∃ c0, (newAuto sz c : MemRegion α) = .buf [] c0 := by
  unfold newAuto newHeap newMmap
  split_ifs <;> [exact Or.inr ⟨c, rfl⟩; exact Or.inl rfl;
    exact Or.inr ⟨_, rfl⟩; exact Or.inr ⟨c, rfl⟩]

namespace StableRegion

theorem reserve_cases (s : StableRegion α) (k : ℕ) :
    s.reserve k = s ∨
    (s.loc.len = 0 ∧ k > s.loc.capacity ∧
      s.reserve k =
        { s with loc := newAuto s.sz (max k (min (nextPow2 (s.loc.capacity + 1)) s.limit)) }) ∨
    (s.reserve k =
        { s with loc := newAuto s.sz (max k (min (nextPow2 (s.loc.capacity + 1)) s.limit)),
                 stash := s.stash ++ [s.loc],
                 stashCap := vecPushCap s.stash.length s.stashCap }) := by
  unfold reserve
  split
  · rename_i hcond
    split
    · rename_i hemp
      have hlen : s.loc.len = 0 := by simpa [MemRegion.isEmpty] using hemp
      exact Or.inr (Or.inl ⟨hlen, by omega, rfl⟩)
    · exact Or.inr (Or.inr rfl)
  · exact Or.inl rfl

/-- Total capacity mentioned by a `heap_size` report. -/
def capSum (s : StableRegion α) : ℕ := (s.heapSize.map Prod.snd).sum

theorem capSum_eq (s : StableRegion α) :
    s.capSum = s.loc.capacity * s.sz +
      (s.stashCap * sizeOfVecT + ((s.stash.map fun r => r.capacity * s.sz)).sum) := by
  unfold capSum heapSize
  rw [List.map_cons, List.map_cons, List.sum_cons, List.sum_cons, List.map_map]
  rfl

theorem heapSize_used_le_cap {s : StableRegion α} (h : s.wfB = true) :
    ∀ p ∈ s.heapSize, p.1 ≤ p.2 := by
  rw [wfB_iff] at h
  obtain ⟨hloc, hstash, hcap⟩ := h
  intro p hp
  unfold heapSize at hp
  simp only [List.mem_cons, List.mem_map] at hp
  rcases hp with hp | hp | ⟨r, hr, hp⟩
  · rw [hp]
    exact Nat.mul_le_mul_right _ (MemRegion.wf_len_le_cap hloc)
  · rw [hp]
    exact Nat.mul_le_mul_right _ hcap
  · rw [← hp]
    exact Nat.mul_le_mul_right _ (MemRegion.wf_len_le_cap (hstash r hr))

theorem copyIter_capSum {s : StableRegion α} {xs : List α}
    {s' : StableRegion α} {ref : SliceRef} {mv : Bool}
    (hc : s.copyIter xs = some (s', ref, mv)) : s.capSum ≤ s'.capSum := by
  simp only [copyIter] at hc
  rcases reserve_cases s xs.length with hr | ⟨hlen0, hgt, hr⟩ | hr
  · rw [hr] at hc
    cases hloc : s.loc with
    | nil => rw [hloc] at hc; simp [MemRegion.extend] at hc
    | buf d c =>
      obtain ⟨c', mv', hex, hlen, hcle, _, _⟩ := MemRegion.extend_buf_spec d c xs
      rw [hloc, hex] at hc
      simp only [Option.some.injEq, Prod.mk.injEq] at hc
      obtain ⟨hs', _, _⟩ := hc
      rw [← hs', capSum_eq, capSum_eq]
      simp only [hloc, MemRegion.capacity_buf]
      have : c * s.sz ≤ c' * s.sz := Nat.mul_le_mul_right _ hcle
      omega
  · rw [hr] at hc
    rcases newAuto_cases (α := α) s.sz
        (max xs.length (min (nextPow2 (s.loc.capacity + 1)) s.limit)) with hna | ⟨c0, hna⟩
    · rw [hna] at hc; simp [MemRegion.extend] at hc
    · rw [hna] at hc
      obtain ⟨c', mv', hex, hlen, hcle, _, _⟩ := MemRegion.extend_buf_spec [] c0 xs
      rw [hex] at hc
      simp only [Option.some.injEq, Prod.mk.injEq] at hc
      obtain ⟨hs', _, _⟩ := hc
      rw [← hs', capSum_eq, capSum_eq]
      simp only [List.nil_append, MemRegion.capacity_buf]
      have hck : xs.length ≤ c' := by simpa using hlen
      have : s.loc.capacity * s.sz ≤ c' * s.sz :=
        Nat.mul_le_mul_right _ (by omega)
      omega
  · rw [hr] at hc
    rcases newAuto_cases (α := α) s.sz
        (max xs.length (min (nextPow2 (s.loc.capacity + 1)) s.limit)) with hna | ⟨c0, hna⟩
    · rw [hna] at hc; simp [MemRegion.extend] at hc
    · rw [hna] at hc
      obtain ⟨c', mv', hex, hlen, hcle, _, _⟩ := MemRegion.extend_buf_spec [] c0 xs
      rw [hex] at hc
      simp only [Option.some.injEq, Prod.mk.injEq] at hc
      obtain ⟨hs', _, _⟩ := hc
      rw [← hs', capSum_eq, capSum_eq]
      simp only [List.nil_append, MemRegion.capacity_buf, List.map_append, List.sum_append,
        List.map_cons, List.map_nil, List.sum_cons, List.sum_nil]
      have hpc := vecPushCap_le s.stash.length s.stashCap
      have : s.stashCap * sizeOfVecT ≤ vecPushCap s.stash.length s.stashCap * sizeOfVecT :=
        Nat.mul_le_mul_right _ hpc
      omega

end StableRegion

end Columnation

namespace Columnation

namespace StableRegion

theorem readSlice_length {s : StableRegion α} {ref : SliceRef} {xs : List α}
    (h : s.readSlice ref = some xs) : xs.length = ref.len := by
  unfold readSlice at h
  cases hb : s.buffers[ref.buf]? with
  | none => rw [hb] at h; simp at h
  | some r =>
    rw [hb] at h
    simp only [Option.some_bind] at h
    by_cases hle : ref.off + ref.len ≤ r.dataOf.length
    · rw [if_pos hle] at h
      simp only [Option.some.injEq] at h
      rw [← h]
      simp only [List.length_take, List.length_drop]
      omega
    · rw [if_neg hle] at h
      simp at h

end StableRegion

namespace RegState

theorem ext_refl : ∀ rs : RegState, rs.ext rs
  | .primSt => trivial
  | .optSt r => ext_refl r
  | .resSt r1 r2 => ⟨ext_refl r1, ext_refl r2⟩
  | .vecSt sr inner => ⟨StableRegion.Ext.refl sr, ext_refl inner⟩
  | .strSt sr => StableRegion.Ext.refl sr
  | .pairSt r1 r2 => ⟨ext_refl r1, ext_refl r2⟩

theorem ext_trans : ∀ {a b c : RegState}, a.ext b → b.ext c → a.ext c := by
  intro a
  induction a with
  | primSt =>
    intro b c h1 h2
    cases b <;> try exact h1.elim
    cases c <;> try exact h2.elim
    trivial
  | optSt r ih =>
    intro b c h1 h2
    cases b <;> try exact h1.elim
    cases c <;> try exact h2.elim
    exact ih h1 h2
  | resSt r1 r2 ih1 ih2 =>
    intro b c h1 h2
    cases b <;> try exact h1.elim
    cases c <;> try exact h2.elim
    exact ⟨ih1 h1.1 h2.1, ih2 h1.2 h2.2⟩
  | vecSt sr inner ih =>
    intro b c h1 h2
    cases b <;> try exact h1.elim
    cases c <;> try exact h2.elim
    exact ⟨StableRegion.Ext.trans h1.1 h2.1, ih h1.2 h2.2⟩
  | strSt sr =>
    intro b c h1 h2
    cases b <;> try exact h1.elim
    cases c <;> try exact h2.elim
    exact StableRegion.Ext.trans h1 h2
  | pairSt r1 r2 ih1 ih2 =>
    intro b c h1 h2
    cases b <;> try exact h1.elim
    cases c <;> try exact h2.elim
    exact ⟨ih1 h1.1 h2.1, ih2 h1.2 h2.2⟩

end RegState

theorem mapOpt_mono {α β : Type} {f g : α → Option β}
    (h : ∀ a b, f a = some b → g a = some b) :
    ∀ {l : List α} {ys : List β}, mapOpt f l = some ys → mapOpt g l = some ys := by
  intro l
  induction l with
  | nil => intro ys hm; exact hm
  | cons x xs ih =>
    intro ys hm
    simp only [mapOpt] at hm ⊢
    cases hfx : f x with
    | none => rw [hfx] at hm; simp at hm
    | some y =>
      rw [hfx] at hm
      simp only [Option.some_bind] at hm
      cases hrest : mapOpt f xs with
      | none => rw [hrest] at hm; simp at hm
      | some ys' =>
        rw [hrest] at hm
        simp only [Option.some_bind] at hm
        rw [h x y hfx, ih hrest]
        exact hm

theorem resolve_mono : ∀ {rs rs' : RegState}, rs.ext rs' →
    ∀ {rep : Rep} {v : Val}, resolve rs rep = some v → resolve rs' rep = some v := by
  intro rs
  induction rs with
  | primSt =>
    intro rs' hext rep v h
    cases rs' <;> try exact hext.elim
    exact h
  | optSt r ih =>
    intro rs' hext rep v h
    cases rs' <;> try exact hext.elim
    rename_i r'
    cases rep <;> simp only [resolve] at h ⊢ <;> try exact h
    · rename_i x
      cases hr : resolve r x with
      | none => rw [hr] at h; simp at h
      | some w => rw [hr] at h; rw [ih hext hr]; exact h
  | resSt r1 r2 ih1 ih2 =>
    intro rs' hext rep v h
    cases rs' <;> try exact hext.elim
    rename_i r1' r2'
    cases rep <;> simp only [resolve] at h ⊢ <;> try exact h
    · rename_i x
      cases hr : resolve r1 x with
      | none => rw [hr] at h; simp at h
      | some w => rw [hr] at h; rw [ih1 hext.1 hr]; exact h
    · rename_i x
      cases hr : resolve r2 x with
      | none => rw [hr] at h; simp at h
      | some w => rw [hr] at h; rw [ih2 hext.2 hr]; exact h
  | vecSt sr inner ih =>
    intro rs' hext rep v h
    cases rs' <;> try exact hext.elim
    rename_i sr' inner'
    cases rep <;> simp only [resolve] at h ⊢ <;> try exact h
    rename_i b o l c
    cases hr : sr.readSlice ⟨b, o, l⟩ with
    | none => rw [hr] at h; simp at h
    | some reps =>
      rw [hr] at h
      rw [StableRegion.readSlice_mono hext.1 hr]
      simp only at h ⊢
      cases hm : mapOpt (fun r => resolve inner r) reps with
      | none => rw [hm] at h; simp at h
      | some vals =>
        rw [hm] at h
        rw [mapOpt_mono (fun a b hab => ih hext.2 hab) hm]
        exact h
  | strSt sr =>
    intro rs' hext rep v h
    cases rs' <;> try exact hext.elim
    rename_i sr'
    cases rep <;> simp only [resolve] at h ⊢ <;> try exact h
    rename_i b o l c
    cases hr : sr.readSlice ⟨b, o, l⟩ with
    | none => rw [hr] at h; simp at h
    | some bytes =>
      rw [hr] at h
      rw [StableRegion.readSlice_mono hext hr]
      exact h
  | pairSt r1 r2 ih1 ih2 =>
    intro rs' hext rep v h
    cases rs' <;> try exact hext.elim
    rename_i r1' r2'
    cases rep <;> simp only [resolve] at h ⊢ <;> try exact h
    rename_i x y
    cases hr : resolve r1 x with
    | none => rw [hr] at h; simp at h
    | some a =>
      rw [hr] at h
      rw [ih1 hext.1 hr]
      simp only at h ⊢
      cases hr2 : resolve r2 y with
      | none => rw [hr2] at h; simp at h
      | some b2 =>
        rw [hr2] at h
        rw [ih2 hext.2 hr2]
        exact h

end Columnation

namespace Columnation

theorem rcopy_spec : ∀ (t : Ty) {rs : RegState} {v : Val} {rep : Rep} {rs' : RegState},
    shapeB t rs = true → rs.wfB = true → hasTy t v = true →
    rcopy t rs v = some (rep, rs') →
    rs.ext rs' ∧ shapeB t rs' = true ∧ rs'.wfB = true ∧ resolve rs' rep = some v := by
  intro t
  induction t with
  | prim =>
    intro rs v rep rs' hs hw ht hc
    cases rs <;> simp [shapeB] at hs
    cases v <;> simp [hasTy] at ht
    simp only [rcopy, Option.some.injEq, Prod.mk.injEq] at hc
    obtain ⟨hrep, hrs'⟩ := hc
    subst hrep hrs'
    exact ⟨RegState.ext_refl _, rfl, rfl, rfl⟩
  | opt t ih =>
    intro rs v rep rs' hs hw ht hc
    cases rs <;> simp [shapeB] at hs
    rename_i r
    cases v <;> simp [hasTy] at ht
    · simp only [rcopy, Option.some.injEq, Prod.mk.injEq] at hc
      obtain ⟨hrep, hrs'⟩ := hc
      subst hrep hrs'
      exact ⟨RegState.ext_refl _, hs, hw, rfl⟩
    · rename_i x
      simp only [rcopy] at hc
      cases hrec : rcopy t r x with
      | none => rw [hrec] at hc; simp at hc
      | some p =>
        obtain ⟨rep0, r2⟩ := p
        rw [hrec] at hc
        simp only [Option.some.injEq, Prod.mk.injEq] at hc
        obtain ⟨hrep, hrs'⟩ := hc
        subst hrep hrs'
        obtain ⟨hext, hshape, hwf, hres⟩ := ih hs hw ht hrec
        refine ⟨hext, hshape, hwf, ?_⟩
        simp only [resolve]
        rw [hres]
  | res a b iha ihb =>
    intro rs v rep rs' hs hw ht hc
    cases rs <;> simp [shapeB] at hs
    rename_i r1 r2
    obtain ⟨hs1, hs2⟩ := hs
    have hw12 : r1.wfB = true ∧ r2.wfB = true := by
      simpa [RegState.wfB, Bool.and_eq_true] using hw
    cases v <;> simp [hasTy] at ht
    · rename_i x
      simp only [rcopy] at hc
      cases hrec : rcopy a r1 x with
      | none => rw [hrec] at hc; simp at hc
      | some p =>
        obtain ⟨rep0, r1'⟩ := p
        rw [hrec] at hc
        simp only [Option.some.injEq, Prod.mk.injEq] at hc
        obtain ⟨hrep, hrs'⟩ := hc
        subst hrep hrs'
        obtain ⟨hext, hshape, hwf, hres⟩ := iha hs1 hw12.1 ht hrec
        refine ⟨⟨hext, RegState.ext_refl _⟩, ?_, ?_, ?_⟩
        · simp [shapeB, hshape, hs2]
        · simp [RegState.wfB, hwf, hw12.2]
        · simp only [resolve]
          rw [hres]
    · rename_i x
      simp only [rcopy] at hc
      cases hrec : rcopy b r2 x with
      | none => rw [hrec] at hc; simp at hc
      | some p =>
        obtain ⟨rep0, r2'⟩ := p
        rw [hrec] at hc
        simp only [Option.some.injEq, Prod.mk.injEq] at hc
        obtain ⟨hrep, hrs'⟩ := hc
        subst hrep hrs'
        obtain ⟨hext, hshape, hwf, hres⟩ := ihb hs2 hw12.2 ht hrec
        refine ⟨⟨RegState.ext_refl _, hext⟩, ?_, ?_, ?_⟩
        · simp [shapeB, hshape, hs1]
        · simp [RegState.wfB, hwf, hw12.1]
        · simp only [resolve]
          rw [hres]
  | pair a b iha ihb =>
    intro rs v rep rs' hs hw ht hc
    cases rs <;> simp [shapeB] at hs
    rename_i r1 r2
    obtain ⟨hs1, hs2⟩ := hs
    have hw12 : r1.wfB = true ∧ r2.wfB = true := by
      simpa [RegState.wfB, Bool.and_eq_true] using hw
    cases v <;> simp [hasTy] at ht
    rename_i x y
    obtain ⟨htx, hty⟩ := ht
    simp only [rcopy] at hc
    cases hrec1 : rcopy a r1 x with
    | none => rw [hrec1] at hc; simp at hc
    | some p =>
      obtain ⟨ra, r1'⟩ := p
      rw [hrec1] at hc
      cases hrec2 : rcopy b r2 y with
      | none => rw [hrec2] at hc; simp at hc
      | some q =>
        obtain ⟨rb, r2'⟩ := q
        rw [hrec2] at hc
        simp only [Option.some.injEq, Prod.mk.injEq] at hc
        obtain ⟨hrep, hrs'⟩ := hc
        subst hrep hrs'
        obtain ⟨hext1, hshape1, hwf1, hres1⟩ := iha hs1 hw12.1 htx hrec1
        obtain ⟨hext2, hshape2, hwf2, hres2⟩ := ihb hs2 hw12.2 hty hrec2
        refine ⟨⟨hext1, hext2⟩, ?_, ?_, ?_⟩
        · simp [shapeB, hshape1, hshape2]
        · simp [RegState.wfB, hwf1, hwf2]
        · simp only [resolve]
          rw [hres1, hres2]
  | str =>
    intro rs v rep rs' hs hw ht hc
    cases rs <;> simp [shapeB] at hs
    rename_i sr
    cases v <;> simp [hasTy] at ht
    rename_i bytes
    simp only [rcopy] at hc
    cases hcs : sr.copySlice bytes with
    | none => rw [hcs] at hc; simp at hc
    | some q =>
      obtain ⟨sr2, ref, mv⟩ := q
      rw [hcs] at hc
      simp only [Option.some.injEq, Prod.mk.injEq] at hc
      obtain ⟨hrep, hrs'⟩ := hc
      subst hrep hrs'
      rw [StableRegion.copySlice_eq_copyIter] at hcs
      obtain ⟨hsrext, hsrwf, hmv, hread, _, _, _⟩ := StableRegion.copyIter_spec hw hcs
      have hlenref : bytes.length = ref.len := StableRegion.readSlice_length hread
      refine ⟨hsrext, rfl, hsrwf, ?_⟩
      simp only [resolve]
      have hrefeta : (⟨ref.buf, ref.off, bytes.length⟩ : SliceRef) = ref := by
        cases ref
        simp at hlenref ⊢
        exact hlenref
      rw [hrefeta, hread]
  | vec t ih =>
    intro rs v rep rs' hs hw ht hc
    cases rs <;> simp [shapeB] at hs
    rename_i sr inner
    cases v <;> simp [hasTy] at ht
    rename_i l
    have hw12 : sr.wfB = true ∧ inner.wfB = true := by
      simpa [RegState.wfB, Bool.and_eq_true] using hw
    have htall : ∀ x ∈ l, hasTy t x = true := by simpa using ht
    have aux : ∀ (l0 : List Val) (inn : RegState), shapeB t inn = true → inn.wfB = true →
        (∀ x ∈ l0, hasTy t x = true) →
        ∀ {reps : List Rep} {inn2 : RegState},
        rcopyL (fun st e => rcopy t st e) inn l0 = some (reps, inn2) →
        inn.ext inn2 ∧ shapeB t inn2 = true ∧ inn2.wfB = true ∧
          mapOpt (fun r => resolve inn2 r) reps = some l0 ∧ reps.length = l0.length := by
      intro l0
      induction l0 with
      | nil =>
        intro inn h1 h2 h3 reps inn2 hcl
        simp only [rcopyL, Option.some.injEq, Prod.mk.injEq] at hcl
        obtain ⟨hreps, hinn⟩ := hcl
        subst hreps hinn
        exact ⟨RegState.ext_refl _, h1, h2, rfl, rfl⟩
      | cons x xs ihl =>
        intro inn h1 h2 h3 reps inn2 hcl
        simp only [rcopyL] at hcl
        cases hx : rcopy t inn x with
        | none => rw [hx] at hcl; simp at hcl
        | some p =>
          obtain ⟨rx, inn1⟩ := p
          rw [hx] at hcl
          simp only at hcl
          cases hxs : rcopyL (fun st e => rcopy t st e) inn1 xs with
          | none => rw [hxs] at hcl; simp at hcl
          | some q =>
            obtain ⟨rxs, inn2'⟩ := q
            rw [hxs] at hcl
            simp only [Option.some.injEq, Prod.mk.injEq] at hcl
            obtain ⟨hreps, hinn⟩ := hcl
            subst hreps hinn
            obtain ⟨hext1, hsh1, hwf1, hres1⟩ := ih h1 h2 (h3 x (by simp)) hx
            obtain ⟨hext2, hsh2, hwf2, hres2, hlen2⟩ :=
              ihl inn1 hsh1 hwf1 (fun y hy => h3 y (by simp [hy])) hxs
            refine ⟨RegState.ext_trans hext1 hext2, hsh2, hwf2, ?_, by simp [hlen2]⟩
            simp only [mapOpt]
            rw [resolve_mono hext2 hres1]
            simp only [Option.some_bind]
            rw [hres2]
            rfl
    simp only [rcopy] at hc
    cases hcl : rcopyL (fun st e => rcopy t st e) inner l with
    | none => rw [hcl] at hc; simp at hc
    | some p =>
      obtain ⟨reps, inner2⟩ := p
      rw [hcl] at hc
      simp only at hc
      cases hci : sr.copyIter reps with
      | none => rw [hci] at hc; simp at hc
      | some q =>
        obtain ⟨sr2, ref, mv⟩ := q
        rw [hci] at hc
        simp only [Option.some.injEq, Prod.mk.injEq] at hc
        obtain ⟨hrep, hrs'⟩ := hc
        subst hrep hrs'
        obtain ⟨hauxext, hauxsh, hauxwf, hauxres, hauxlen⟩ :=
          aux l inner hs hw12.2 htall hcl
        obtain ⟨hsrext, hsrwf, hmv, hread, _, _, _⟩ := StableRegion.copyIter_spec hw12.1 hci
        have hlenref : reps.length = ref.len := StableRegion.readSlice_length hread
        refine ⟨⟨hsrext, hauxext⟩, hauxsh, ?_, ?_⟩
        · simp [RegState.wfB, hsrwf, hauxwf]
        · simp only [resolve]
          have hrefeta : (⟨ref.buf, ref.off, l.length⟩ : SliceRef) = ref := by
            cases ref
            simp at hlenref ⊢
            omega
          rw [hrefeta]
          simp [hread, hauxres]

end Columnation

namespace Columnation

/-- Models `slice::swap` (`self.local.swap(position, write_position)`):
exchange the elements at two indices.  Out-of-bounds indices would panic
in Rust; `retain_from` only ever swaps in-bounds positions, and the
fallback branch is unreachable there. -/
def swapList (l : List α) (i j : ℕ) : List α :=
  match l[i]?, l[j]? with
  | some a, some b => (l.set i b).set j a
  | _, _ => l

theorem take_set_le {l : List α} {n m : ℕ} (h : m ≤ n) (a : α) :
    (l.set n a).take m = l.take m := by
  apply List.ext_getElem?
  intro i
  rw [List.getElem?_take, List.getElem?_take]
  split
  · rename_i hi
    rw [List.getElem?_set_ne (by omega)]
  · rfl

theorem swapList_eq {l : List α} {i j : ℕ} (hi : i < l.length) (hj : j < l.length) :
    swapList l i j = (l.set i l[j]).set j l[i] := by
  unfold swapList
  rw [List.getElem?_eq_getElem hi, List.getElem?_eq_getElem hj]

theorem swapList_length (l : List α) (i j : ℕ) : (swapList l i j).length = l.length := by
  unfold swapList
  split <;> simp

theorem swapList_take {l : List α} {i j k : ℕ} (h1 : k ≤ i) (h2 : k ≤ j) :
    (swapList l i j).take k = l.take k := by
  unfold swapList
  split
  · rw [take_set_le h2, take_set_le h1]
  · rfl

theorem swapList_drop {l : List α} {i j k : ℕ} (h1 : i < k) (h2 : j < k) :
    (swapList l i j).drop k = l.drop k := by
  unfold swapList
  split
  · rw [List.drop_set_of_lt _ _ h2, List.drop_set_of_lt _ _ h1]
  · rfl

theorem swapList_getElem?_snd {l : List α} {i j : ℕ} (hi : i < l.length) (hj : j < l.length) :
    (swapList l i j)[j]? = l[i]? := by
  rw [swapList_eq hi hj]
  rw [List.getElem?_set_self (by simpa using hj), List.getElem?_eq_getElem hi]

/-- Models the loop `for position in index .. self.local.len()` of
`ColumnStack::retain_from`: `n` is the number of remaining positions,
and the result carries the array, the final `write_position`, and the
number of predicate invocations (the loop calls the predicate once per
position). -/
def retainLoop (p : α → Bool) : ℕ → List α → ℕ → ℕ → List α × ℕ × ℕ
  | 0, arr, _, write => (arr, write, 0)
  | n + 1, arr, pos, write =>
    match arr[pos]? with
    | none => (arr, write, 0)
    | some a =>
      if p a then
        let r := retainLoop p n (swapList arr pos write) (pos + 1) (write + 1)
        (r.1, r.2.1, r.2.2 + 1)
      else
        let r := retainLoop p n arr (pos + 1) write
        (r.1, r.2.1, r.2.2 + 1)

/-- Models `ColumnStack::retain_from` acting on the surface vector: the
guarded swap loop followed by `set_len(write_position)` (modelled by
`take`, which drops no element destructor either way).  The second
component counts predicate invocations. -/
def retainFrom (l : List α) (index : ℕ) (p : α → Bool) : List α × ℕ :=
  if index < l.length then
    let r := retainLoop p (l.length - index) l index index
    (r.1.take r.2.1, r.2.2)
  else (l, 0)

theorem retainLoop_spec (p : α → Bool) (orig : List α) (index : ℕ) :
    ∀ (n : ℕ) (arr : List α) (pos write : ℕ),
      arr.length = orig.length →
      index ≤ write → write ≤ pos → pos + n = orig.length →
      arr.drop pos = orig.drop pos →
      arr.take write = orig.take index ++ ((orig.drop index).take (pos - index)).filter p →
      (retainLoop p n arr pos write).1.take (retainLoop p n arr pos write).2.1 =
          orig.take index ++ (orig.drop index).filter p ∧
        (retainLoop p n arr pos write).1.length = orig.length ∧
        (retainLoop p n arr pos write).2.2 = n := by
  intro n
  induction n with
  | zero =>
    intro arr pos write h1 h2 h3 h4 h5 h6
    simp only [retainLoop]
    have hpos : pos = orig.length := by omega
    have htk : (orig.drop index).take (pos - index) = orig.drop index := by
      apply List.take_of_length_le
      simp only [List.length_drop]
      omega
    rw [htk] at h6
    exact ⟨h6, h1, trivial⟩
  | succ n ih =>
    intro arr pos write h1 h2 h3 h4 h5 h6
    have hlt : pos < orig.length := by omega
    have hplt : pos < arr.length := by omega
    have hwlt : write < arr.length := by omega
    have hpa : arr[pos]? = orig[pos]? := by
      have e1 := List.getElem?_drop arr pos 0
      have e2 := List.getElem?_drop orig pos 0
      rw [h5] at e1
      rw [e2] at e1
      simpa using e1.symm
    have ha : arr[pos]? = some orig[pos] := by
      rw [hpa]
      exact List.getElem?_eq_getElem hlt
    have hseg : (orig.drop index).take (pos + 1 - index) =
        (orig.drop index).take (pos - index) ++ [orig[pos]] := by
      have harith : pos + 1 - index = (pos - index) + 1 := by omega
      rw [harith, List.take_succ]
      have : (orig.drop index)[pos - index]? = some orig[pos] := by
        rw [List.getElem?_drop]
        have : index + (pos - index) = pos := by omega
        rw [this]
        exact List.getElem?_eq_getElem hlt
      rw [this]
      rfl
    simp only [retainLoop]
    rw [ha]
    simp only
    by_cases hp : p orig[pos]
    · rw [if_pos hp]
      simp only
      have hih := ih (swapList arr pos write) (pos + 1) (write + 1)
        (by rw [swapList_length, h1])
        (by omega) (by omega) (by omega)
        (by
          rw [swapList_drop (by omega) (by omega)]
          have := congrArg (List.drop 1) h5
          simpa [List.drop_drop] using this)
        (by
          rw [List.take_succ,
            swapList_take (by omega) (Nat.le_refl write),
            swapList_getElem?_snd hplt hwlt, ha, hseg,
            List.filter_append, h6]
          simp [hp])
      exact ⟨hih.1, hih.2.1, by rw [hih.2.2]⟩
    · rw [if_neg hp]
      simp only
      have hih := ih arr (pos + 1) write h1 h2 (by omega) (by omega)
        (by
          have := congrArg (List.drop 1) h5
          simpa [List.drop_drop] using this)
        (by
          rw [hseg, List.filter_append, h6]
          simp [hp])
      exact ⟨hih.1, hih.2.1, by rw [hih.2.2]⟩

theorem retainFrom_spec (p : α → Bool) (l : List α) (index : ℕ) (h : index < l.length) :
    (retainFrom l index p).1 = l.take index ++ (l.drop index).filter p ∧
      (retainFrom l index p).2 = l.length - index := by
  unfold retainFrom
  rw [if_pos h]
  have hspec := retainLoop_spec p l index (l.length - index) l index index rfl
    (Nat.le_refl index) (Nat.le_refl index) (by omega) rfl
    (by simp)
  exact ⟨hspec.1, hspec.2.2⟩

theorem retainFrom_of_ge (p : α → Bool) (l : List α) (index : ℕ) (h : l.length ≤ index) :
    retainFrom l index p = (l, 0) := by
  unfold retainFrom
  rw [if_neg (by omega)]

end Columnation

namespace Columnation

namespace RegState

/-- Total capacity mentioned by a region hierarchy's `heap_size`
report. -/
def capSum (rs : RegState) : ℕ := (rs.heapSize.map Prod.snd).sum

theorem capSum_primSt : RegState.primSt.capSum = 0 := rfl

theorem capSum_optSt (r : RegState) : (RegState.optSt r).capSum = r.capSum := rfl

theorem capSum_resSt (a b : RegState) :
    (RegState.resSt a b).capSum = a.capSum + b.capSum := by
  simp [capSum, heapSize]

theorem capSum_vecSt (sr : StableRegion Rep) (inner : RegState) :
    (RegState.vecSt sr inner).capSum = inner.capSum + sr.capSum := by
  simp [capSum, heapSize, StableRegion.capSum]

theorem capSum_strSt (sr : StableRegion ℕ) :
    (RegState.strSt sr).capSum = sr.capSum := rfl

theorem capSum_pairSt (a b : RegState) :
    (RegState.pairSt a b).capSum = a.capSum + b.capSum := by
  simp [capSum, heapSize]

theorem region_heapSize_le {rs : RegState} (hw : rs.wfB = true) :
    ∀ p ∈ rs.heapSize, p.1 ≤ p.2 := by
  induction rs with
  | primSt => intro p hp; simp [heapSize] at hp
  | optSt r ih => exact ih hw
  | resSt r1 r2 ih1 ih2 =>
    obtain ⟨h1, h2⟩ : r1.wfB = true ∧ r2.wfB = true := by
      simpa [wfB, Bool.and_eq_true] using hw
    intro p hp
    rcases List.mem_append.mp hp with hp | hp
    · exact ih1 h1 p hp
    · exact ih2 h2 p hp
  | vecSt sr inner ih =>
    obtain ⟨h1, h2⟩ : sr.wfB = true ∧ inner.wfB = true := by
      simpa [wfB, Bool.and_eq_true] using hw
    intro p hp
    rcases List.mem_append.mp hp with hp | hp
    · exact ih h2 p hp
    · exact StableRegion.heapSize_used_le_cap h1 p hp
  | strSt sr =>
    intro p hp
    exact StableRegion.heapSize_used_le_cap hw p hp
  | pairSt r1 r2 ih1 ih2 =>
    obtain ⟨h1, h2⟩ : r1.wfB = true ∧ r2.wfB = true := by
      simpa [wfB, Bool.and_eq_true] using hw
    intro p hp
    rcases List.mem_append.mp hp with hp | hp
    · exact ih1 h1 p hp
    · exact ih2 h2 p hp

end RegState

theorem rcopy_capSum : ∀ (t : Ty) {rs : RegState} {v : Val} {rep : Rep} {rs' : RegState},
    shapeB t rs = true → rs.wfB = true → hasTy t v = true →
    rcopy t rs v = some (rep, rs') → rs.capSum ≤ rs'.capSum := by
  intro t
  induction t with
  | prim =>
    intro rs v rep rs' hs hw ht hc
    cases rs <;> simp [shapeB] at hs
    cases v <;> simp [hasTy] at ht
    simp only [rcopy, Option.some.injEq, Prod.mk.injEq] at hc
    rw [← hc.2]
  | opt t ih =>
    intro rs v rep rs' hs hw ht hc
    cases rs <;> simp [shapeB] at hs
    rename_i r
    cases v <;> simp [hasTy] at ht
    · simp only [rcopy, Option.some.injEq, Prod.mk.injEq] at hc
      rw [← hc.2]
    · rename_i x
      simp only [rcopy] at hc
      cases hrec : rcopy t r x with
      | none => rw [hrec] at hc; simp at hc
      | some p =>
        obtain ⟨rep0, r2⟩ := p
        rw [hrec] at hc
        simp only [Option.some.injEq, Prod.mk.injEq] at hc
        rw [← hc.2, RegState.capSum_optSt, RegState.capSum_optSt]
        exact ih hs hw ht hrec
  | res a b iha ihb =>
    intro rs v rep rs' hs hw ht hc
    cases rs <;> simp [shapeB] at hs
    rename_i r1 r2
    obtain ⟨hs1, hs2⟩ := hs
    obtain ⟨hw1, hw2⟩ : r1.wfB = true ∧ r2.wfB = true := by
      simpa [RegState.wfB, Bool.and_eq_true] using hw
    cases v <;> simp [hasTy] at ht
    · rename_i x
      simp only [rcopy] at hc
      cases hrec : rcopy a r1 x with
      | none => rw [hrec] at hc; simp at hc
      | some p =>
        obtain ⟨rep0, r1'⟩ := p
        rw [hrec] at hc
        simp only [Option.some.injEq, Prod.mk.injEq] at hc
        rw [← hc.2, RegState.capSum_resSt, RegState.capSum_resSt]
        have := iha hs1 hw1 ht hrec
        omega
    · rename_i x
      simp only [rcopy] at hc
      cases hrec : rcopy b r2 x with
      | none => rw [hrec] at hc; simp at hc
      | some p =>
        obtain ⟨rep0, r2'⟩ := p
        rw [hrec] at hc
        simp only [Option.some.injEq, Prod.mk.injEq] at hc
        rw [← hc.2, RegState.capSum_resSt, RegState.capSum_resSt]
        have := ihb hs2 hw2 ht hrec
        omega
  | pair a b iha ihb =>
    intro rs v rep rs' hs hw ht hc
    cases rs <;> simp [shapeB] at hs
    rename_i r1 r2
    obtain ⟨hs1, hs2⟩ := hs
    obtain ⟨hw1, hw2⟩ : r1.wfB = true ∧ r2.wfB = true := by
      simpa [RegState.wfB, Bool.and_eq_true] using hw
    cases v <;> simp [hasTy] at ht
    rename_i x y
    obtain ⟨htx, hty⟩ := ht
    simp only [rcopy] at hc
    cases hrec1 : rcopy a r1 x with
    | none => rw [hrec1] at hc; simp at hc
    | some p =>
      obtain ⟨ra, r1'⟩ := p
      rw [hrec1] at hc
      cases hrec2 : rcopy b r2 y with
      | none => rw [hrec2] at hc; simp at hc
      | some q =>
        obtain ⟨rb, r2'⟩ := q
        rw [hrec2] at hc
        simp only [Option.some.injEq, Prod.mk.injEq] at hc
        rw [← hc.2, RegState.capSum_pairSt, RegState.capSum_pairSt]
        have h1 := iha hs1 hw1 htx hrec1
        have h2 := ihb hs2 hw2 hty hrec2
        omega
  | str =>
    intro rs v rep rs' hs hw ht hc
    cases rs <;> simp [shapeB] at hs
    rename_i sr
    cases v <;> simp [hasTy] at ht
    rename_i bytes
    simp only [rcopy] at hc
    cases hcs : sr.copySlice bytes with
    | none => rw [hcs] at hc; simp at hc
    | some q =>
      obtain ⟨sr2, ref, mv⟩ := q
      rw [hcs] at hc
      simp only [Option.some.injEq, Prod.mk.injEq] at hc
      rw [← hc.2, RegState.capSum_strSt, RegState.capSum_strSt]
      rw [StableRegion.copySlice_eq_copyIter] at hcs
      exact StableRegion.copyIter_capSum hcs
  | vec t ih =>
    intro rs v rep rs' hs hw ht hc
    cases rs <;> simp [shapeB] at hs
    rename_i sr inner
    cases v <;> simp [hasTy] at ht
    rename_i l
    obtain ⟨hw1, hw2⟩ : sr.wfB = true ∧ inner.wfB = true := by
      simpa [RegState.wfB, Bool.and_eq_true] using hw
    have aux : ∀ (l0 : List Val) (inn : RegState), shapeB t inn = true → inn.wfB = true →
        (∀ x ∈ l0, hasTy t x = true) →
        ∀ {reps : List Rep} {inn2 : RegState},
        rcopyL (fun st e => rcopy t st e) inn l0 = some (reps, inn2) →
        inn.capSum ≤ inn2.capSum := by
      intro l0
      induction l0 with
      | nil =>
        intro inn h1 h2 h3 reps inn2 hcl
        simp only [rcopyL, Option.some.injEq, Prod.mk.injEq] at hcl
        rw [← hcl.2]
      | cons x xs ihl =>
        intro inn h1 h2 h3 reps inn2 hcl
        simp only [rcopyL] at hcl
        cases hx : rcopy t inn x with
        | none => rw [hx] at hcl; simp at hcl
        | some p =>
          obtain ⟨rx, inn1⟩ := p
          rw [hx] at hcl
          simp only at hcl
          cases hxs : rcopyL (fun st e => rcopy t st e) inn1 xs with
          | none => rw [hxs] at hcl; simp at hcl
          | some q =>
            obtain ⟨rxs, inn2'⟩ := q
            rw [hxs] at hcl
            simp only [Option.some.injEq, Prod.mk.injEq] at hcl
            obtain ⟨hsh1, hwf1⟩ :=
              (rcopy_spec t h1 h2 (h3 x (by simp)) hx).2
            have step1 := ih h1 h2 (h3 x (by simp)) hx
            have step2 := ihl inn1 hsh1 hwf1.1 (fun y hy => h3 y (by simp [hy])) hxs
            rw [← hcl.2]
            omega
    simp only [rcopy] at hc
    cases hcl : rcopyL (fun st e => rcopy t st e) inner l with
    | none => rw [hcl] at hc; simp at hc
    | some p =>
      obtain ⟨reps, inner2⟩ := p
      rw [hcl] at hc
      simp only at hc
      cases hci : sr.copyIter reps with
      | none => rw [hci] at hc; simp at hc
      | some q =>
        obtain ⟨sr2, ref, mv⟩ := q
        rw [hci] at hc
        simp only [Option.some.injEq, Prod.mk.injEq] at hc
        rw [← hc.2, RegState.capSum_vecSt, RegState.capSum_vecSt]
        have h1 := aux l inner hs hw2 (by simpa using ht) hcl
        have h2 := StableRegion.copyIter_capSum hci
        omega

end Columnation

namespace Columnation

theorem mkDefault_wf (sz : ℕ) : (StableRegion.mkDefault sz : StableRegion α).wfB = true := by
  simp [StableRegion.wfB, StableRegion.mkDefault, MemRegion.wfB]

theorem freshRegState_shape (szOf : Ty → ℕ) : ∀ t : Ty, shapeB t (freshRegState szOf t) = true
  | .prim => rfl
  | .opt t => freshRegState_shape szOf t
  | .res a b => by
    simp only [freshRegState, shapeB, Bool.and_eq_true]
    exact ⟨freshRegState_shape szOf a, freshRegState_shape szOf b⟩
  | .vec t => freshRegState_shape szOf t
  | .str => rfl
  | .pair a b => by
    simp only [freshRegState, shapeB, Bool.and_eq_true]
    exact ⟨freshRegState_shape szOf a, freshRegState_shape szOf b⟩

theorem freshRegState_wf (szOf : Ty → ℕ) : ∀ t : Ty, (freshRegState szOf t).wfB = true
  | .prim => rfl
  | .opt t => freshRegState_wf szOf t
  | .res a b => by
    simp only [freshRegState, RegState.wfB, Bool.and_eq_true]
    exact ⟨freshRegState_wf szOf a, freshRegState_wf szOf b⟩
  | .vec t => by
    simp only [freshRegState, RegState.wfB, Bool.and_eq_true]
    exact ⟨mkDefault_wf _, freshRegState_wf szOf t⟩
  | .str => by
    simp only [freshRegState, RegState.wfB]
    exact mkDefault_wf _
  | .pair a b => by
    simp only [freshRegState, RegState.wfB, Bool.and_eq_true]
    exact ⟨freshRegState_wf szOf a, freshRegState_wf szOf b⟩

theorem mapOpt_map_some {α β : Type} {f : α → Option β} :
    ∀ {l : List α} {ys : List β}, mapOpt f l = some ys →
      l.map f = ys.map some ∧ l.length = ys.length := by
  intro l
  induction l with
  | nil =>
    intro ys hm
    simp only [mapOpt, Option.some.injEq] at hm
    subst hm
    exact ⟨rfl, rfl⟩
  | cons x xs ih =>
    intro ys hm
    simp only [mapOpt] at hm
    cases hfx : f x with
    | none => rw [hfx] at hm; simp at hm
    | some y =>
      rw [hfx] at hm
      simp only [Option.some_bind] at hm
      cases hrest : mapOpt f xs with
      | none => rw [hrest] at hm; simp at hm
      | some ys' =>
        rw [hrest] at hm
        simp only [Option.some_bind, Option.some.injEq] at hm
        subst hm
        obtain ⟨h1, h2⟩ := ih hrest
        simp [hfx, h1, h2]

theorem runCopies_spec (t : Ty) : ∀ (vs : List Val) (s s' : ColumnStack),
    shapeB t s.inner = true → s.inner.wfB = true →
    (∀ v ∈ vs, hasTy t v = true) →
    runCopies t s vs = some s' →
    s.inner.ext s'.inner ∧ shapeB t s'.inner = true ∧ s'.inner.wfB = true ∧
      ∃ reps, s'.loc = s.loc ++ reps ∧
        mapOpt (fun r => resolve s'.inner r) reps = some vs := by
  intro vs
  induction vs with
  | nil =>
    intro s s' h1 h2 h3 hr
    simp only [runCopies, Option.some.injEq] at hr
    subst hr
    exact ⟨RegState.ext_refl _, h1, h2, [], by simp, rfl⟩
  | cons v vs ih =>
    intro s s' h1 h2 h3 hr
    simp only [runCopies] at hr
    cases hcp : s.copy t v with
    | none => rw [hcp] at hr; simp at hr
    | some s1 =>
      rw [hcp] at hr
      simp only at hr
      unfold ColumnStack.copy at hcp
      cases hrc : rcopy t s.inner v with
      | none => rw [hrc] at hcp; simp at hcp
      | some p =>
        obtain ⟨rep, inner1⟩ := p
        rw [hrc] at hcp
        simp only [Option.some.injEq] at hcp
        obtain ⟨hext1, hsh1, hwf1, hres1⟩ := rcopy_spec t h1 h2 (h3 v (by simp)) hrc
        have hs1inner : s1.inner = inner1 := by rw [← hcp]
        have hs1loc : s1.loc = s.loc ++ [rep] := by rw [← hcp]
        obtain ⟨hext2, hsh2, hwf2, reps, hloc, hm⟩ :=
          ih s1 s' (by rw [hs1inner]; exact hsh1) (by rw [hs1inner]; exact hwf1)
            (fun y hy => h3 y (by simp [hy])) hr
        rw [hs1inner] at hext2
        refine ⟨RegState.ext_trans hext1 hext2, hsh2, hwf2, rep :: reps, ?_, ?_⟩
        · rw [hloc, hs1loc]
          simp
        · simp only [mapOpt]
          rw [resolve_mono hext2 hres1]
          simp only [Option.some_bind]
          rw [hm]
          rfl

namespace RegState

theorem clear_shape : ∀ (t : Ty) (rs : RegState), shapeB t rs = true → shapeB t rs.clear = true := by
  intro t
  induction t with
  | prim => intro rs hs; cases rs <;> simp [shapeB, clear] at hs ⊢
  | opt t ih =>
    intro rs hs
    cases rs <;> simp [shapeB, clear] at hs ⊢
    exact ih _ hs
  | res a b iha ihb =>
    intro rs hs
    cases rs <;> simp [shapeB, clear] at hs ⊢
    exact ⟨iha _ hs.1, ihb _ hs.2⟩
  | vec t ih =>
    intro rs hs
    cases rs <;> simp [shapeB, clear] at hs ⊢
    exact ih _ hs
  | str => intro rs hs; cases rs <;> simp [shapeB, clear] at hs ⊢
  | pair a b iha ihb =>
    intro rs hs
    cases rs <;> simp [shapeB, clear] at hs ⊢
    exact ⟨iha _ hs.1, ihb _ hs.2⟩

theorem clear_wf : ∀ rs : RegState, rs.clear.wfB = true := by
  intro rs
  induction rs with
  | primSt => rfl
  | optSt r ih => exact ih
  | resSt r1 r2 ih1 ih2 => simp [clear, wfB, ih1, ih2]
  | vecSt sr inner ih =>
    simp only [clear, wfB, Bool.and_eq_true]
    refine ⟨?_, ih⟩
    rw [StableRegion.wfB_iff]
    refine ⟨?_, by simp [StableRegion.clear], by simp [StableRegion.clear]⟩
    simp only [StableRegion.clear]
    cases sr.loc <;> simp [MemRegion.clearLen, MemRegion.wfB]
  | strSt sr =>
    simp only [clear, wfB]
    rw [StableRegion.wfB_iff]
    refine ⟨?_, by simp [StableRegion.clear], by simp [StableRegion.clear]⟩
    simp only [StableRegion.clear]
    cases sr.loc <;> simp [MemRegion.clearLen, MemRegion.wfB]
  | pairSt r1 r2 ih1 ih2 => simp [clear, wfB, ih1, ih2]

theorem clear_idem : ∀ rs : RegState, rs.clear.clear = rs.clear := by
  intro rs
  have hsr : ∀ {β : Type} (sr : StableRegion β), sr.clear.clear = sr.clear := by
    intro β sr
    simp only [StableRegion.clear]
    cases hl : sr.loc <;> simp [MemRegion.clearLen]
  induction rs with
  | primSt => rfl
  | optSt r ih => simp [clear, ih]
  | resSt r1 r2 ih1 ih2 => simp [clear, ih1, ih2]
  | vecSt sr inner ih => simp [clear, ih, hsr]
  | strSt sr => simp [clear, hsr]
  | pairSt r1 r2 ih1 ih2 => simp [clear, ih1, ih2]

end RegState

end Columnation

namespace Columnation

theorem ColumnStack.capTotal_eq (s : ColumnStack) :
    s.capTotal = s.cap * s.szT + s.inner.capSum := by
  simp [ColumnStack.capTotal, ColumnStack.heapSize, RegState.capSum]

theorem ColumnStack.stack_heapSize_le {s : ColumnStack} (hw : s.wfB = true) :
    ∀ p ∈ s.heapSize, p.1 ≤ p.2 := by
  obtain ⟨hl, hi⟩ : s.loc.length ≤ s.cap ∧ s.inner.wfB = true := by
    simpa [ColumnStack.wfB, Bool.and_eq_true] using hw
  intro p hp
  simp only [ColumnStack.heapSize, List.mem_cons] at hp
  rcases hp with hp | hp
  · rw [hp]
    exact Nat.mul_le_mul_right _ hl
  · exact RegState.region_heapSize_le hi p hp

theorem copy_capTotal {t : Ty} {s s' : ColumnStack} {item : Val}
    (hs : shapeB t s.inner = true) (hw : s.inner.wfB = true) (ht : hasTy t item = true)
    (hc : s.copy t item = some s') : s.capTotal ≤ s'.capTotal := by
  unfold ColumnStack.copy at hc
  cases hrc : rcopy t s.inner item with
  | none => rw [hrc] at hc; simp at hc
  | some p =>
    obtain ⟨rep, inner1⟩ := p
    rw [hrc] at hc
    simp only [Option.some.injEq] at hc
    rw [← hc, ColumnStack.capTotal_eq, ColumnStack.capTotal_eq]
    simp only
    have h1 : s.cap * s.szT ≤ vecPushCap s.loc.length s.cap * s.szT :=
      Nat.mul_le_mul_right _ (vecPushCap_le _ _)
    have h2 := rcopy_capSum t hs hw ht hrc
    omega

theorem copy_wf_shape {t : Ty} {s s' : ColumnStack} {item : Val}
    (hs : shapeB t s.inner = true) (ht : hasTy t item = true) (hw : s.wfB = true)
    (hc : s.copy t item = some s') : s'.wfB = true ∧ shapeB t s'.inner = true := by
  obtain ⟨hl, hi⟩ : s.loc.length ≤ s.cap ∧ s.inner.wfB = true := by
    simpa [ColumnStack.wfB, Bool.and_eq_true] using hw
  unfold ColumnStack.copy at hc
  cases hrc : rcopy t s.inner item with
  | none => rw [hrc] at hc; simp at hc
  | some p =>
    obtain ⟨rep, inner1⟩ := p
    rw [hrc] at hc
    simp only [Option.some.injEq] at hc
    obtain ⟨_, hsh1, hwf1, _⟩ := rcopy_spec t hs hi ht hrc
    constructor
    · rw [← hc]
      simp only [ColumnStack.wfB, Bool.and_eq_true, decide_eq_true_eq]
      refine ⟨?_, hwf1⟩
      simp only [List.length_append, List.length_singleton]
      have := vecPushCap_lt s.loc.length s.cap
      omega
    · rw [← hc]
      exact hsh1

theorem runCopies_capTotal (t : Ty) : ∀ (vs : List Val) (s s' : ColumnStack),
    shapeB t s.inner = true → s.wfB = true →
    (∀ v ∈ vs, hasTy t v = true) →
    runCopies t s vs = some s' → s.capTotal ≤ s'.capTotal := by
  intro vs
  induction vs with
  | nil =>
    intro s s' h1 h2 h3 hr
    simp only [runCopies, Option.some.injEq] at hr
    rw [hr]
  | cons v vs ih =>
    intro s s' h1 h2 h3 hr
    simp only [runCopies] at hr
    cases hcp : s.copy t v with
    | none => rw [hcp] at hr; simp at hr
    | some s1 =>
      rw [hcp] at hr
      simp only at hr
      have hiw : s.inner.wfB = true := by
        have := (by simpa [ColumnStack.wfB, Bool.and_eq_true] using h2 :
          s.loc.length ≤ s.cap ∧ s.inner.wfB = true)
        exact this.2
      have step := copy_capTotal h1 hiw (h3 v (by simp)) hcp
      obtain ⟨hwf1, hsh1⟩ := copy_wf_shape h1 (h3 v (by simp)) h2 hcp
      have rest := ih s1 s' hsh1 hwf1 (fun y hy => h3 y (by simp [hy])) hr
      omega

/-- Number of element destructors the drop glue of a `Vec` of the given
length invokes (one per element). -/
def vecDropCount (n : ℕ) : ℕ := n

namespace MemRegion

/-- Models the element destructors run by `impl Drop for memory::Region`:
`Heap(vec)` first does `vec.set_len(0)` and then lets the vector's own
drop glue run, which invokes the element destructor once per remaining
element; `MMap(vec, mmap)` forgets the vector (no element destructor)
and returns the mapping; `Nil` holds nothing. -/
def dropElemCount : MemRegion α → ℕ
  | .nil => 0
  | .buf d c => vecDropCount (MemRegion.clearLen (.buf d c)).len

theorem dropElemCount_eq_zero : ∀ r : MemRegion α, r.dropElemCount = 0
  | .nil => rfl
  | .buf _ _ => rfl

end MemRegion

namespace StableRegion

/-- Element destructors run by `StableRegion::clear`: `local.clear()` is
a length reset (runs none) and `stash.clear()` drops each retired
`memory::Region`. -/
def clearDropCount (s : StableRegion α) : ℕ :=
  (s.stash.map MemRegion.dropElemCount).sum

/-- Element destructors run when a `StableRegion` is dropped: `local`
and every stashed buffer are dropped as `memory::Region`s. -/
def dropCount (s : StableRegion α) : ℕ :=
  s.loc.dropElemCount + (s.stash.map MemRegion.dropElemCount).sum

theorem stable_clearDropCount_zero (s : StableRegion α) : s.clearDropCount = 0 := by
  unfold clearDropCount
  induction s.stash with
  | nil => rfl
  | cons r rs ih => simp [MemRegion.dropElemCount_eq_zero, ih]

theorem stable_dropCount_zero (s : StableRegion α) : s.dropCount = 0 := by
  unfold dropCount
  rw [MemRegion.dropElemCount_eq_zero]
  have := s.stable_clearDropCount_zero
  unfold clearDropCount at this
  omega

end StableRegion

namespace RegState

/-- Element destructors run by `Region::clear` through the hierarchy
(`CopyRegion::clear` is a no-op; the structural regions forward). -/
def clearDropCount : RegState → ℕ
  | .primSt => 0
  | .optSt r => r.clearDropCount
  | .resSt r1 r2 => r1.clearDropCount + r2.clearDropCount
  | .vecSt sr inner => sr.clearDropCount + inner.clearDropCount
  | .strSt sr => sr.clearDropCount
  | .pairSt r1 r2 => r1.clearDropCount + r2.clearDropCount

/-- Element destructors run when a region hierarchy is dropped (every
`StableRegion` drops its buffers as `memory::Region`s). -/
def dropCount : RegState → ℕ
  | .primSt => 0
  | .optSt r => r.dropCount
  | .resSt r1 r2 => r1.dropCount + r2.dropCount
  | .vecSt sr inner => sr.dropCount + inner.dropCount
  | .strSt sr => sr.dropCount
  | .pairSt r1 r2 => r1.dropCount + r2.dropCount

theorem region_clearDropCount_zero : ∀ rs : RegState, rs.clearDropCount = 0 := by
  intro rs
  induction rs <;>
    simp_all [clearDropCount, StableRegion.stable_clearDropCount_zero]

theorem region_dropCount_zero : ∀ rs : RegState, rs.dropCount = 0 := by
  intro rs
  induction rs <;>
    simp_all [dropCount, StableRegion.stable_dropCount_zero]

end RegState

namespace ColumnStack

/-- Element destructors run by `ColumnStack::clear`:
`local.set_len(0)` runs none, then `inner.clear()` runs the hierarchy's
clear. -/
def clearDropCount (s : ColumnStack) : ℕ := s.inner.clearDropCount

/-- Element destructors run by `impl Drop for ColumnStack`: it calls
`self.clear()` and then the fields are dropped — the surface vector
(whose length is now zero) and the cleared inner region. -/
def dropCount (s : ColumnStack) : ℕ :=
  s.clearDropCount + vecDropCount s.clear.loc.length + s.clear.inner.dropCount

theorem stack_clearDropCount_zero (s : ColumnStack) : s.clearDropCount = 0 :=
  RegState.region_clearDropCount_zero s.inner

theorem stack_dropCount_zero (s : ColumnStack) : s.dropCount = 0 := by
  unfold dropCount
  rw [stack_clearDropCount_zero, RegState.region_dropCount_zero]
  rfl

end ColumnStack

end Columnation

namespace Columnation

/-- Models `ColumnStack::retain_from` at the stack level; the inner
region is not touched ("may or may not reclaim memory" — it does not).
The second component counts predicate invocations. -/
def ColumnStack.retainFrom (s : ColumnStack) (index : ℕ) (p : Rep → Bool) :
    ColumnStack × ℕ :=
  ({ s with loc := (Columnation.retainFrom s.loc index p).1 },
    (Columnation.retainFrom s.loc index p).2)

/-- C1 (amended).  Round-trip equality holds for every supported element
type and every sequence of records whose copies all complete: after
`stack.copy(&r_i)` for each record on a fresh `ColumnStack`, the view
has length `k` and its `i`-th element reads back (through the arena)
equal to `r_i`.  (As literally stated the claim fails: the very first
copy of an empty-payload record panics on the `Nil` buffer, see the
counterexample.) -/
theorem copy_roundtrip_of_success (t : Ty) (szOf : Ty → ℕ) (szT : ℕ) (vs : List Val)
    (s' : ColumnStack) (hty : ∀ v ∈ vs, hasTy t v = true)
    (hrun : runCopies t (ColumnStack.fresh szOf szT t) vs = some s') :
    s'.loc.length = vs.length ∧ s'.view = vs.map some := by
  obtain ⟨_, _, _, reps, hloc, hm⟩ := runCopies_spec t vs _ s'
    (freshRegState_shape szOf t) (freshRegState_wf szOf t) hty hrun
  obtain ⟨hmap, hlen⟩ := mapOpt_map_some hm
  have hl : s'.loc = reps := by simpa [ColumnStack.fresh] using hloc
  constructor
  · rw [hl]
    exact hlen
  · unfold ColumnStack.view
    rw [hl, hmap]

/-- C1 counterexample.  Copying the single record `""` (an empty
string) into a fresh `ColumnStack<String>` panics (`as_mut` on the
`Nil` buffer), so the claimed view of length 1 is never produced. -/
theorem copy_roundtrip_counterexample :
    runCopies .str (ColumnStack.fresh (fun _ => 8) 24 .str) [.strV []] = none ∧
    ¬ ∃ st, runCopies .str (ColumnStack.fresh (fun _ => 8) 24 .str) [.strV []] = some st ∧
        st.loc.length = 1 := by
  constructor
  · rfl
  · rintro ⟨st, hst, -⟩
    rw [show runCopies .str (ColumnStack.fresh (fun _ => 8) 24 .str) [.strV []] = none
      from rfl] at hst
    exact Option.noConfusion hst

/-- C1 witness: copying the two-byte string succeeds and the view reads
back equal to the input. -/
theorem copy_roundtrip_of_success_witness :
    (∀ v ∈ [Val.strV [1, 2]], hasTy .str v = true) ∧
    runCopies .str (ColumnStack.fresh (fun _ => 8) 24 .str) [.strV [1, 2]] =
      some ⟨[.strPtr 0 0 2 2], 1, 24, .strSt ⟨1, .buf [1, 2] 2, [], 0, 2097152⟩⟩ ∧
    ((⟨[.strPtr 0 0 2 2], 1, 24, .strSt ⟨1, .buf [1, 2] 2, [], 0, 2097152⟩⟩ :
        ColumnStack).loc.length = [Val.strV [1, 2]].length ∧
      (⟨[.strPtr 0 0 2 2], 1, 24, .strSt ⟨1, .buf [1, 2] 2, [], 0, 2097152⟩⟩ :
        ColumnStack).view = [Val.strV [1, 2]].map some) :=
  ⟨by decide, rfl, copy_roundtrip_of_success .str (fun _ => 8) 24 [.strV [1, 2]] _
    (by decide) rfl⟩

/-- C2 (code bug).  The library is specified to be infallible apart
from allocation failure, but copying an empty `String` (or an empty
`Vec`) into a fresh `ColumnStack` panics: `reserve(0)` never replaces
the initial `Region::Nil` local buffer, and the subsequent
`extend`/`extend_from_slice` calls `as_mut`, which panics with
"Cannot represent Nil region as vector". -/
theorem empty_copy_panics :
    (StableRegion.mkDefault 1 : StableRegion ℕ).copySlice [] = none ∧
    runCopies .str (ColumnStack.fresh (fun _ => 8) 24 .str) [.strV []] = none ∧
    runCopies (.vec .prim) (ColumnStack.fresh (fun _ => 8) 24 (.vec .prim))
      [.vecV []] = none :=
  ⟨rfl, rfl, rfl⟩

/-- C3 (code bug).  `StableRegion::reserve(2097152)` on a fresh
`StableRegion<u8>` requests `max(2097152, min(limit, 1)) = 2097152`
slots; `new_auto` routes the exactly-2-MiB request to `new_mmap`, whose
`byte_len = min(0x1000, bytes).next_power_of_two() = 4096` (the
comment says "round up to at least a page" and `new_auto` documents
"capacity at least as large as requested", so `min` is a slip for
`max`), installing a buffer of capacity 4096 — far fewer than the
`max(n, min(limit, next_pow2(cap+1)))` unused slots the claim and the
code's own documentation require. -/
theorem reserve_mmap_underallocation :
    ((StableRegion.mkDefault 1 : StableRegion ℕ).reserve 2097152).loc.capacity = 4096 ∧
    ((StableRegion.mkDefault 1 : StableRegion ℕ).reserve 2097152).loc.len = 0 ∧
    ¬ (2097152 ≤ 4096) :=
  ⟨by decide, by decide, by decide⟩

/-- C4.  Stability: on a well-formed `StableRegion`, `reserve`,
`copy_iter` and `copy_slice` never move a written buffer (the
reallocation-while-nonempty flag is always false), every element keeps
its position and value, and every previously returned slice still reads
back unchanged; the freshly returned slice reads back as the copied
items. -/
theorem stable_region_stability {α : Type} (s : StableRegion α) (h : s.wfB = true) :
    (∀ (k b j : ℕ) (v : α), s.lookupAt b j = some v → (s.reserve k).lookupAt b j = some v) ∧
    (∀ (k : ℕ) (ref : SliceRef) (xs : List α), s.readSlice ref = some xs →
      (s.reserve k).readSlice ref = some xs) ∧
    (∀ (xs : List α) (s' : StableRegion α) (ref : SliceRef) (mv : Bool),
      s.copyIter xs = some (s', ref, mv) →
      mv = false ∧
        (∀ (b j : ℕ) (v : α), s.lookupAt b j = some v → s'.lookupAt b j = some v) ∧
        (∀ (ref2 : SliceRef) (ys : List α), s.readSlice ref2 = some ys →
          s'.readSlice ref2 = some ys) ∧
        s'.readSlice ref = some xs) ∧
    (∀ (xs : List α) (s' : StableRegion α) (ref : SliceRef) (mv : Bool),
      s.copySlice xs = some (s', ref, mv) →
      mv = false ∧
        (∀ (b j : ℕ) (v : α), s.lookupAt b j = some v → s'.lookupAt b j = some v) ∧
        (∀ (ref2 : SliceRef) (ys : List α), s.readSlice ref2 = some ys →
          s'.readSlice ref2 = some ys) ∧
        s'.readSlice ref = some xs) := by
  refine ⟨?_, ?_, ?_, ?_⟩
  · intro k b j v hv
    exact StableRegion.lookupAt_mono (StableRegion.reserve_ext s k) hv
  · intro k ref xs hx
    exact StableRegion.readSlice_mono (StableRegion.reserve_ext s k) hx
  · intro xs s' ref mv hc
    obtain ⟨hext, hwf', hmv, hread, _, _, _⟩ := StableRegion.copyIter_spec h hc
    exact ⟨hmv, fun b j v hv => StableRegion.lookupAt_mono hext hv,
      fun r2 ys hy => StableRegion.readSlice_mono hext hy, hread⟩
  · intro xs s' ref mv hc
    rw [StableRegion.copySlice_eq_copyIter] at hc
    obtain ⟨hext, hwf', hmv, hread, _, _, _⟩ := StableRegion.copyIter_spec h hc
    exact ⟨hmv, fun b j v hv => StableRegion.lookupAt_mono hext hv,
      fun r2 ys hy => StableRegion.readSlice_mono hext hy, hread⟩

/-- C4 witness: a concrete region holding one element keeps it readable
across a `reserve`. -/
theorem stable_region_stability_witness :
    (⟨1, .buf [5] 2, [], 0, 2097152⟩ : StableRegion ℕ).wfB = true ∧
    ((⟨1, .buf [5] 2, [], 0, 2097152⟩ : StableRegion ℕ).lookupAt 0 0 = some 5 →
      ((⟨1, .buf [5] 2, [], 0, 2097152⟩ : StableRegion ℕ).reserve 4).lookupAt 0 0 = some 5) :=
  ⟨by decide, (stable_region_stability _ (by decide)).1 4 0 0 5⟩

/-- C5.  Destructor suppression: clearing or dropping a `ColumnStack`
in any state runs zero replica destructors, and so do
`StableRegion::clear` and its drop — every container is length-reset
(or forgotten, for mmap buffers) before its backing vector's drop glue
runs. -/
theorem destructor_suppression (s : ColumnStack) (sr : StableRegion Rep)
    (srb : StableRegion ℕ) :
    s.clearDropCount = 0 ∧ s.dropCount = 0 ∧
      sr.clearDropCount = 0 ∧ sr.dropCount = 0 ∧
      srb.clearDropCount = 0 ∧ srb.dropCount = 0 :=
  ⟨s.stack_clearDropCount_zero, s.stack_dropCount_zero,
    sr.stable_clearDropCount_zero, sr.stable_dropCount_zero,
    srb.stable_clearDropCount_zero, srb.stable_dropCount_zero⟩

/-- C6.  `retain_from(i, p)` with `i` in range keeps the prefix
`[0..i)` untouched, keeps exactly the elements of `[i..)` that satisfy
`p`, in their original relative order, and leaves the inner region (the
storage the survivors alias) untouched. -/
theorem retain_from_filters (s : ColumnStack) (index : ℕ) (p : Rep → Bool)
    (h : index < s.loc.length) :
    (s.retainFrom index p).1.loc = s.loc.take index ++ (s.loc.drop index).filter p ∧
    (s.retainFrom index p).1.loc.take index = s.loc.take index ∧
    (s.retainFrom index p).1.loc.drop index = (s.loc.drop index).filter p ∧
    (s.retainFrom index p).1.inner = s.inner := by
  obtain ⟨h1, h2⟩ := retainFrom_spec p s.loc index h
  have hloc : (s.retainFrom index p).1.loc = s.loc.take index ++ (s.loc.drop index).filter p :=
    h1
  have hlen : (s.loc.take index).length = index := by
    simp only [List.length_take]
    omega
  refine ⟨hloc, ?_, ?_, rfl⟩
  · rw [hloc, List.take_left' hlen]
  · rw [hloc, List.drop_left' hlen]

/-- C6 witness: retaining from index 1 with a predicate keeping only
the value 3 leaves the prefix and the matching suffix element. -/
theorem retain_from_filters_witness :
    1 < ([Rep.prim 1, Rep.prim 2, Rep.prim 3] : List Rep).length ∧
    ((⟨[Rep.prim 1, Rep.prim 2, Rep.prim 3], 3, 8, .primSt⟩ : ColumnStack).retainFrom 1
        (fun r => r == Rep.prim 3)).1.loc =
      ([Rep.prim 1, Rep.prim 2, Rep.prim 3] : List Rep).take 1 ++
        (([Rep.prim 1, Rep.prim 2, Rep.prim 3] : List Rep).drop 1).filter
          (fun r => r == Rep.prim 3) :=
  ⟨by decide,
    (retain_from_filters ⟨[Rep.prim 1, Rep.prim 2, Rep.prim 3], 3, 8, .primSt⟩ 1
      (fun r => r == Rep.prim 3) (by decide)).1⟩

/-- C7.  Replica sizing: `VecRegion::copy` falsifies its vector replica
with `Vec::from_raw_parts(ptr, item.len(), item.len())` and
`StringStack::copy` its string replica with `len == cap ==
item.len()` — every produced replica has equal length and capacity
fields, both equal to the source payload length. -/
theorem replica_len_eq_cap (t : Ty) :
    (∀ (sr : StableRegion Rep) (inner : RegState) (l : List Val) (rep : Rep)
        (rs' : RegState),
      rcopy (.vec t) (.vecSt sr inner) (.vecV l) = some (rep, rs') →
      ∃ b o, rep = .vecPtr b o l.length l.length) ∧
    (∀ (sr : StableRegion ℕ) (bytes : List ℕ) (rep : Rep) (rs' : RegState),
      rcopy .str (.strSt sr) (.strV bytes) = some (rep, rs') →
      ∃ b o, rep = .strPtr b o bytes.length bytes.length) := by
  constructor
  · intro sr inner l rep rs' hc
    simp only [rcopy] at hc
    cases hcl : rcopyL (fun st e => rcopy t st e) inner l with
    | none => rw [hcl] at hc; simp at hc
    | some p =>
      obtain ⟨reps, inner2⟩ := p
      rw [hcl] at hc
      simp only at hc
      cases hci : sr.copyIter reps with
      | none => rw [hci] at hc; simp at hc
      | some q =>
        obtain ⟨sr2, ref, mv⟩ := q
        rw [hci] at hc
        simp only [Option.some.injEq, Prod.mk.injEq] at hc
        exact ⟨ref.buf, ref.off, hc.1.symm⟩
  · intro sr bytes rep rs' hc
    simp only [rcopy] at hc
    cases hcs : sr.copySlice bytes with
    | none => rw [hcs] at hc; simp at hc
    | some q =>
      obtain ⟨sr2, ref, mv⟩ := q
      rw [hcs] at hc
      simp only [Option.some.injEq, Prod.mk.injEq] at hc
      exact ⟨ref.buf, ref.off, hc.1.symm⟩

/-- C7 witness: the replica of the two-byte string has length 2 and
capacity 2. -/
theorem replica_len_eq_cap_witness :
    rcopy .str (.strSt (StableRegion.mkDefault 1)) (.strV [1, 2]) =
      some (.strPtr 0 0 2 2, .strSt ⟨1, .buf [1, 2] 2, [], 0, 2097152⟩) ∧
    (∃ b o, (Rep.strPtr 0 0 2 2) = .strPtr b o ([1, 2] : List ℕ).length
      ([1, 2] : List ℕ).length) :=
  ⟨rfl, (replica_len_eq_cap .prim).2 (StableRegion.mkDefault 1) [1, 2] _ _ rfl⟩

/-- C8 (amended).  `clear(); clear()` leaves the stack empty, is the
same as a single `clear()`, and the stack is re-usable: any subsequent
sequence of copies that completes satisfies round-trip equality of the
view.  (As literally stated the claim fails: on a stack whose byte
arena has never been grown past `Nil`, a subsequent copy of an
empty-payload record still panics, see the counterexample.) -/
theorem clear_clear_reusable (t : Ty) (s : ColumnStack) (hs : shapeB t s.inner = true) :
    s.clear.clear.loc = [] ∧ s.clear.clear = s.clear ∧
    ∀ (vs : List Val) (s' : ColumnStack), (∀ v ∈ vs, hasTy t v = true) →
      runCopies t s.clear.clear vs = some s' →
      s'.loc.length = vs.length ∧ s'.view = vs.map some := by
  refine ⟨rfl, ?_, ?_⟩
  · simp [ColumnStack.clear, RegState.clear_idem]
  · intro vs s' hty hrun
    have hsh : shapeB t s.clear.clear.inner = true :=
      RegState.clear_shape t _ (RegState.clear_shape t _ hs)
    have hwf : s.clear.clear.inner.wfB = true := RegState.clear_wf _
    obtain ⟨_, _, _, reps, hloc, hm⟩ := runCopies_spec t vs _ s' hsh hwf hty hrun
    obtain ⟨hmap, hlen⟩ := mapOpt_map_some hm
    have hl : s'.loc = reps := by simpa [ColumnStack.clear] using hloc
    constructor
    · rw [hl]
      exact hlen
    · unfold ColumnStack.view
      rw [hl, hmap]

/-- C8 counterexample.  After `clear(); clear()` on a fresh
`ColumnStack<String>`, copying the empty string still panics (the byte
arena's local buffer is still `Nil`), so the claimed round-trip view of
length 1 is never produced. -/
theorem clear_clear_counterexample :
    runCopies .str ((ColumnStack.fresh (fun _ => 8) 24 .str).clear.clear) [.strV []] =
      none ∧
    ¬ ∃ st,
      runCopies .str ((ColumnStack.fresh (fun _ => 8) 24 .str).clear.clear) [.strV []] =
          some st ∧
        st.loc.length = 1 := by
  constructor
  · rfl
  · rintro ⟨st, hst, -⟩
    rw [show runCopies .str ((ColumnStack.fresh (fun _ => 8) 24 .str).clear.clear)
      [.strV []] = none from rfl] at hst
    exact Option.noConfusion hst

/-- C8 witness: double clear of a fresh string stack, then a successful
copy, satisfies the conclusion. -/
theorem clear_clear_reusable_witness :
    shapeB .str (ColumnStack.fresh (fun _ => 8) 24 .str).inner = true ∧
    ((ColumnStack.fresh (fun _ => 8) 24 .str).clear.clear.loc = [] ∧
      (ColumnStack.fresh (fun _ => 8) 24 .str).clear.clear =
        (ColumnStack.fresh (fun _ => 8) 24 .str).clear ∧
      ∀ (vs : List Val) (s' : ColumnStack), (∀ v ∈ vs, hasTy .str v = true) →
        runCopies .str (ColumnStack.fresh (fun _ => 8) 24 .str).clear.clear vs = some s' →
        s'.loc.length = vs.length ∧ s'.view = vs.map some) :=
  ⟨by decide, clear_clear_reusable .str (ColumnStack.fresh (fun _ => 8) 24 .str) (by decide)⟩

/-- C9.  Heap-size reporting: on well-formed states every callback
invocation reports used bytes ≤ capacity bytes (for `ColumnStack` and
for `StableRegion`), and the total reported capacity never decreases
across a sequence of successful copies (`ColumnStack::copy` sequences,
and `copy_iter`/`copy_slice` on a `StableRegion`). -/
theorem heap_size_invariants (t : Ty) (α : Type) :
    (∀ s : ColumnStack, s.wfB = true → ∀ p ∈ s.heapSize, p.1 ≤ p.2) ∧
    (∀ s : StableRegion α, s.wfB = true → ∀ p ∈ s.heapSize, p.1 ≤ p.2) ∧
    (∀ (vs : List Val) (s s' : ColumnStack), shapeB t s.inner = true → s.wfB = true →
      (∀ v ∈ vs, hasTy t v = true) → runCopies t s vs = some s' →
      s.capTotal ≤ s'.capTotal) ∧
    (∀ (s s' : StableRegion α) (xs : List α) (ref : SliceRef) (mv : Bool),
      s.copyIter xs = some (s', ref, mv) → s.capSum ≤ s'.capSum) ∧
    (∀ (s s' : StableRegion α) (xs : List α) (ref : SliceRef) (mv : Bool),
      s.copySlice xs = some (s', ref, mv) → s.capSum ≤ s'.capSum) := by
  refine ⟨?_, ?_, ?_, ?_, ?_⟩
  · intro s hw
    exact ColumnStack.stack_heapSize_le hw
  · intro s hw
    exact StableRegion.heapSize_used_le_cap hw
  · intro vs s s' h1 h2 h3 hr
    exact runCopies_capTotal t vs s s' h1 h2 h3 hr
  · intro s s' xs ref mv hc
    exact StableRegion.copyIter_capSum hc
  · intro s s' xs ref mv hc
    rw [StableRegion.copySlice_eq_copyIter] at hc
    exact StableRegion.copyIter_capSum hc

/-- C9 witness: a concrete well-formed region reports used ≤ capacity
in every callback. -/
theorem heap_size_invariants_witness :
    (⟨1, .buf [5] 2, [], 0, 2097152⟩ : StableRegion ℕ).wfB = true ∧
    ∀ p ∈ (⟨1, .buf [5] 2, [], 0, 2097152⟩ : StableRegion ℕ).heapSize, p.1 ≤ p.2 :=
  ⟨by decide, (heap_size_invariants .str ℕ).2.1 _ (by decide)⟩

/-- C10.  `retain_from(index, p)` with `index ≥ len` leaves the stack
entirely unchanged and never evaluates the predicate (the guard
`index < self.local.len()` skips the whole loop). -/
theorem retain_from_out_of_range (s : ColumnStack) (index : ℕ) (p : Rep → Bool)
    (h : s.loc.length ≤ index) :
    (s.retainFrom index p).1 = s ∧ (s.retainFrom index p).2 = 0 := by
  unfold ColumnStack.retainFrom
  rw [retainFrom_of_ge p s.loc index h]
  exact ⟨rfl, rfl⟩

/-- C10 witness: retaining from an out-of-range index changes
nothing. -/
theorem retain_from_out_of_range_witness :
    ([Rep.prim 1] : List Rep).length ≤ 5 ∧
    ((⟨[Rep.prim 1], 1, 8, .primSt⟩ : ColumnStack).retainFrom 5 (fun _ => false)).1 =
        ⟨[Rep.prim 1], 1, 8, .primSt⟩ ∧
      ((⟨[Rep.prim 1], 1, 8, .primSt⟩ : ColumnStack).retainFrom 5 (fun _ => false)).2 = 0 :=
  ⟨by decide,
    retain_from_out_of_range ⟨[Rep.prim 1], 1, 8, .primSt⟩ 5 (fun _ => false) (by decide)⟩

end Columnation
